import Mathlib

/-!
# zget: the download orchestration of `src/main.go`

A shallow embedding of `run`, `downloadfromfile` and `download`, with the
library functions they call (`path.Clean`, `path.Join`, `filepath.Split`,
`strings.SplitN`, `strings.TrimSpace`, `fmt.Sprintf("%s.%d")`, `os.Stat`,
`os.MkdirAll`, `os.OpenFile`, `io.Copy`) modelled next to them.

Conventions.
* A Go `string` is a `List Char` (`Str`): the code only inspects the ASCII
  bytes `/`, `.`, `:` and white space, which never occur inside a multi-byte
  UTF-8 sequence.
* File contents are lists of bytes (`Bytes`).
* Paths use the Unix separator `/` (`filepath.Split` is the Unix one).
* The filesystem is a map from the path string, as the program spells it, to
  an entry; `os.Stat` is a lookup. Directories matter only to `os.MkdirAll`
  and to the parent check of `os.OpenFile`.
* A white-space code point outside ASCII is one `Char`; `strings.TrimSpace`
  trims by code point, as Go does on valid UTF-8.
* Collaborators that are not in `src/main.go` (`parseURL`, the HTTP pool,
  `torrent.Download`, `visit`, the gzip encoder, the list-file reader) are
  parameters.
-/

set_option autoImplicit false

namespace Zget

abbrev Str := List Char
abbrev Bytes := List Nat

/-! ## `strings` -/

/-- Go `strings.HasPrefix(s, pre)`. -/
def strings.HasPrefix (s pre : Str) : Bool := pre.isPrefixOf s

/-- Go `strings.HasSuffix(s, suf)`. -/
def strings.HasSuffix (s suf : Str) : Bool := suf.reverse.isPrefixOf s.reverse

/-- Go `unicode.IsSpace`: the white-space code points. -/
def unicode.IsSpace (c : Char) : Bool :=
  let n := c.toNat
  n == 0x09 || n == 0x0A || n == 0x0B || n == 0x0C || n == 0x0D || n == 0x20 ||
  n == 0x85 || n == 0xA0 || n == 0x1680 || (0x2000 ≤ n && n ≤ 0x200A) ||
  n == 0x2028 || n == 0x2029 || n == 0x202F || n == 0x205F || n == 0x3000

/-- Go `strings.TrimSpace`: leading and trailing white space removed. -/
def strings.TrimSpace (s : Str) : Str :=
  ((s.dropWhile unicode.IsSpace).reverse.dropWhile unicode.IsSpace).reverse

/-- Go `strings.IndexByte(s, c)`: the index of the first `c` in `s`; `none`
stands for `-1`. -/
def strings.IndexByte : Str → Char → Option Nat
  | [], _ => none
  | x :: xs, c => if x = c then some 0 else (strings.IndexByte xs c).map (· + 1)

/-- Go `strings.SplitN(s, sep, 2)` for a one-character separator: cut at the
first occurrence of `sep` when there is one, else the one-element slice. -/
def strings.SplitN2 (s : Str) (sep : Char) : List Str :=
  match strings.IndexByte s sep with
  | none => [s]
  | some m => [s.take m, s.drop (m + 1)]

/-! ## `fmt` -/

/-- Go `fmt.Sprintf("%s.%d", fpath, addNum)` for a non-negative `addNum`. -/
def fmt.SprintfSD (fpath : Str) (addNum : Nat) : Str :=
  fpath ++ '.' :: Nat.toDigits 10 addNum

/-! ## `path` and `path/filepath` -/

/-- The inner loop of the `..` case of `path.Clean`, on the write index `w`:
`for out.w > dotdot && out.index(out.w) != '/' { out.w-- }`. -/
def path.backtrackLoop (buf : Str) (dotdot : Nat) : Nat → Nat
  | 0 => 0
  | w + 1 =>
    if w + 1 > dotdot ∧ buf[w + 1]? ≠ some '/' then path.backtrackLoop buf dotdot w
    else w + 1

/-- The `..` case of `path.Clean` when it can backtrack: `out.w--`, then the
inner loop; the buffer is cut at the resulting write index. -/
def path.backtrack (out : Str) (dotdot : Nat) : Str :=
  out.take (path.backtrackLoop out dotdot (out.length - 1))

/-- The main loop of `path.Clean`. The second argument is the unread input
`path[r:]`, `out` is the written buffer (`out.w = out.length`); the first
argument bounds the number of iterations and is the length of the input,
every iteration reading at least one byte. -/
def path.cleanLoop (rooted : Bool) : Nat → Str → Str → Nat → Str
  | 0, _, out, _ => out
  | _ + 1, [], out, _ => out
  | fuel + 1, c :: rest, out, dotdot =>
    if c = '/' then
      path.cleanLoop rooted fuel rest out dotdot
    else if c = '.' ∧ (rest = [] ∨ rest.head? = some '/') then
      path.cleanLoop rooted fuel rest out dotdot
    else if c = '.' ∧ rest.head? = some '.' ∧
        (rest.tail = [] ∨ rest.tail.head? = some '/') then
      if out.length > dotdot then
        path.cleanLoop rooted fuel rest.tail (path.backtrack out dotdot) dotdot
      else if !rooted then
        let out1 := (if out.length > 0 then out ++ ['/'] else out) ++ ['.', '.']
        path.cleanLoop rooted fuel rest.tail out1 out1.length
      else
        path.cleanLoop rooted fuel rest.tail out dotdot
    else
      let out1 :=
        if (rooted && out.length != 1) || (!rooted && out.length != 0) then out ++ ['/']
        else out
      path.cleanLoop rooted fuel (rest.dropWhile (· != '/'))
        (out1 ++ c :: rest.takeWhile (· != '/')) dotdot

/-- Go `path.Clean`. -/
def path.Clean (p : Str) : Str :=
  if p = [] then ['.']
  else
    let rooted : Bool := p.head? = some '/'
    let out :=
      if rooted then path.cleanLoop true p.length p.tail ['/'] 1
      else path.cleanLoop false p.length p [] 0
    if out.length = 0 then ['.'] else out

/-- The buffer that `path.Join` builds before cleaning: the non-empty
elements separated by `/`. -/
def path.joinBuf : Str → List Str → Str
  | buf, [] => buf
  | buf, e :: es =>
    if buf.length > 0 ∨ e ≠ [] then
      path.joinBuf ((if buf.length > 0 then buf ++ ['/'] else buf) ++ e) es
    else path.joinBuf buf es

/-- Go `path.Join`. -/
def path.Join (elem : List Str) : Str :=
  if (elem.map List.length).sum = 0 then []
  else path.Clean (path.joinBuf [] elem)

/-- Go `filepath.Split` on Unix: the cut after the last `/`. -/
def filepath.Split (p : Str) : Str × Str :=
  let file := (p.reverse.takeWhile (· != '/')).reverse
  (p.take (p.length - file.length), file)

/-! ## Errors, the filesystem and `os` -/

/-- The error values that flow through `run`, `downloadfromfile` and `download`. -/
inductive Err
  /-- The error of `fmt.Errorf("'%s' is directory: can't overwrite", fpath)`. -/
  | isDirectory (fpath : Str)
  /-- The error of `fmt.Errorf("tor not supported on windows")`. -/
  | torWindows
  /-- An `*os.PathError` of `os.OpenFile`. -/
  | pathError (fpath : Str)
  /-- An error value handed back by a collaborator (transport, torrent,
  scanner, list-file reader). -/
  | ext (code : Nat)
  deriving DecidableEq, Repr

/-- What a path names. -/
inductive Entry
  | file (content : Bytes)
  | dir
  deriving DecidableEq, Repr

/-- A filesystem state: the entry, if any, at each path string. -/
abbrev FS := Str → Option Entry

/-- The state with the entry at `p` replaced. -/
def FS.set (fs : FS) (p : Str) (e : Entry) : FS :=
  fun q => if q = p then some e else fs q

/-- Go `os.Stat`: `some e` stands for `err == nil` with `stat.IsDir()` true
exactly when `e = Entry.dir`; `none` stands for `err != nil`. -/
def os.Stat (fs : FS) (p : Str) : Option Entry := fs p

/-- A path without its trailing separators. -/
def os.trimSlash (p : Str) : Str := (p.reverse.dropWhile (· == '/')).reverse

/-- The directories `os.MkdirAll(p)` has to see or make, deepest first: `p`
without trailing separators, and each of its prefixes that stops before a `/`. -/
def os.dirChain (p : Str) : List Str :=
  let q := os.trimSlash p
  ((List.range (q.length + 1)).reverse.filter
    (fun i => 0 < i ∧ (i = q.length ∨ q[i]? = some '/') ∧ q[i - 1]? ≠ some '/')).map q.take

/-- The recursion of `os.MkdirAll` along a chain of directories, deepest
first: an existing directory ends it with success, a regular file with an
error (`none`), a missing entry is made after its parents. -/
def os.mkdirChain (fs : FS) : List Str → Option FS
  | [] => some fs
  | d :: parents =>
    match fs d with
    | some Entry.dir => some fs
    | some (Entry.file _) => none
    | none =>
      match os.mkdirChain fs parents with
      | none => none
      | some fs1 => some (fs1.set d Entry.dir)

/-- Go `os.MkdirAll(p, 0755)` as `download` uses it, its error dropped. -/
def os.MkdirAll (fs : FS) (p : Str) : FS :=
  match os.mkdirChain fs (os.dirChain p) with
  | none => fs
  | some fs1 => fs1

/-- Go `os.OpenFile(fpath, os.O_CREATE|os.O_WRONLY, 0644)`: a directory
cannot be opened for writing; an existing regular file is opened as it is
(there is no `O_TRUNC`); a missing file is created empty when its parent
directory is the working directory or exists. -/
def os.OpenFile (fs : FS) (fpath : Str) : Except Err FS :=
  match fs fpath with
  | some Entry.dir => Except.error (Err.pathError fpath)
  | some (Entry.file _) => Except.ok fs
  | none =>
    let parent := os.trimSlash (filepath.Split fpath).1
    if (filepath.Split fpath).2 ≠ [] ∧ (parent = [] ∨ fs parent = some Entry.dir) then
      Except.ok (fs.set fpath (Entry.file []))
    else Except.error (Err.pathError fpath)

/-- Writing `data` from offset 0 into a file opened without `O_TRUNC`:
the bytes of the old content beyond `data` stay. -/
def os.writeAt0 (old data : Bytes) : Bytes := data ++ old.drop data.length

/-- The effect on the filesystem of `io.Copy` into the file opened at `fpath`. -/
def os.Write (fs : FS) (fpath : Str) (data : Bytes) : FS :=
  match fs fpath with
  | some (Entry.file old) => fs.set fpath (Entry.file (os.writeAt0 old data))
  | _ => fs

/-! ## The program state -/

/-- The fields of a parsed `*url.URL` that `download` reads, and the text
`uparsed.String()` renders. -/
structure URL where
  Host : Str
  Path : Str
  String : Str
  deriving DecidableEq, Repr

/-- A response of the transport: the body `io.Copy` reads, and the error the
read ends with, if it does not end with `io.EOF`. -/
structure Resp where
  Body : Bytes
  readErr : Option Err
  deriving DecidableEq, Repr

/-- The calls to collaborators and to the operating system that change or
observe the world, in the order they are made. -/
inductive Call
  | printVersion
  | torrentDownload (arg : Str)
  | visit (u : URL)
  | hpoolGet (u : Str)
  | mkdirAll (foldername : Str)
  | openFile (fpath : Str)
  deriving DecidableEq, Repr

/-- The world a run acts on: the filesystem and the calls made so far. -/
structure World where
  fs : FS
  calls : List Call

/-- The HTTP pool `hpool`: the answer to `hpool.Get(u)`, which may depend on
the calls made before. -/
abbrev Pool := List Call → Str → Except Err Resp

/-- The header map `httpHeaders`. -/
abbrev Headers := Str → Option Str

/-- What the list file gives when `downloadfromfile` reads it: the result of
`countLinesInFile`, the result of `os.Open`, the lines `scanner.Scan`
yields and the final `scanner.Err()`. -/
structure ListFile where
  countLines : Except Err Int
  openErr : Option Err
  lines : List Str
  scanErr : Option Err

/-- The package-level variables of `main.go` and the collaborators that are
not defined in it. -/
structure Env where
  flagVersion : Bool
  flagUseTor : Bool
  flagDoStat : Bool
  flagGzip : Bool
  flagNoClobber : Bool
  flagVerbose : Bool
  flagWorkers : Int
  flagList : Str
  flagOutfile : Str
  flagHeaders : List Str
  /-- The positional arguments `flag.Args()`. -/
  args : List Str
  /-- The value of `runtime.GOOS`. -/
  GOOS : Str
  httpHeaders : Headers
  hpool : Pool
  parseURL : Str → URL
  httppoolNew : Int → Bool → Headers → Pool
  torrentDownload : Str → Option Err
  gzipEncode : Bytes → Bytes
  readList : Str → ListFile

/-! ## `download` -/

/-- Lines 152-163 of `download`: the path derived from the parsed URL. -/
def derivePath (uparsed : URL) (justone : Bool) : Str :=
  let u := uparsed.String
  let fpath := path.Join [uparsed.Host, uparsed.Path]
  let fpath := if strings.HasSuffix u ['/'] then path.Join [fpath, "index.html".toList] else fpath
  if justone then (filepath.Split fpath).2 else fpath

/-- Lines 178-183: `for addNum := 1; addNum < 1000000; addNum++`, run from
`addNum` for at most the given number of iterations; the result is the value
of `fpath` after the loop. -/
def suffixLoop (fs : FS) (fpath : Str) : Nat → Nat → Str
  | 0, _ => fpath
  | n + 1, addNum =>
    if os.Stat fs (fmt.SprintfSD fpath addNum) = none then fmt.SprintfSD fpath addNum
    else suffixLoop fs fpath n (addNum + 1)

/-- How lines 165-189 end. -/
inductive Resolution
  /-- No-clobber and the path exists: `download` returns nil at once. -/
  | skip
  /-- The path is a directory: `download` returns the error. -/
  | fail (e : Err)
  /-- The path `download` goes on with. -/
  | dest (fpath : Str)
  deriving DecidableEq, Repr

/-- Lines 165-186 of `download`: the output override and the collision
policy, before the `.gz` suffix. -/
def resolveCollision (flagOutfile : Str) (flagNoClobber : Bool) (fs : FS) (fpath : Str) :
    Resolution :=
  if flagOutfile ≠ [] then Resolution.dest flagOutfile
  else
    match os.Stat fs fpath with
    | none => Resolution.dest fpath
    | some stat =>
      if flagNoClobber then Resolution.skip
      else if stat = Entry.dir then Resolution.fail (Err.isDirectory fpath)
      else Resolution.dest (suffixLoop fs fpath 999999 1)

/-- Lines 152-189 of `download`: the destination, with the `.gz` suffix. -/
def resolveDest (env : Env) (u : Str) (justone : Bool) (fs : FS) : Resolution :=
  match resolveCollision env.flagOutfile env.flagNoClobber fs
      (derivePath (env.parseURL u) justone) with
  | Resolution.dest fpath =>
    Resolution.dest (if env.flagGzip then fpath ++ ".gz".toList else fpath)
  | r => r

/-- The function `download` of `main.go`. -/
def download (env : Env) (u : Str) (justone : Bool) (w : World) : Option Err × World :=
  match resolveDest env u justone w.fs with
  | Resolution.skip => (none, w)
  | Resolution.fail e => (some e, w)
  | Resolution.dest fpath =>
    let u := (env.parseURL u).String
    let w1 : World := { w with calls := w.calls ++ [Call.hpoolGet u] }
    match env.hpool w.calls u with
    | Except.error e => (some e, w1)
    | Except.ok resp =>
      let foldername := (filepath.Split fpath).1
      let w2 : World :=
        { fs := os.MkdirAll w1.fs foldername
          calls := w1.calls ++ [Call.mkdirAll foldername, Call.openFile fpath] }
      match os.OpenFile w2.fs fpath with
      | Except.error e => (some e, w2)
      | Except.ok fs3 =>
        let data := if env.flagGzip then env.gzipEncode resp.Body else resp.Body
        (resp.readErr, { w2 with fs := os.Write fs3 fpath data })

/-! ## `downloadfromfile` -/

/-- Lines 137-145 of `downloadfromfile`: the loop over the scanned lines,
for a per-item downloader `dl`. The result is `none` when every call
returned nil. -/
def scanLoop {σ : Type} (dl : Str → Bool → σ → Option Err × σ) :
    List Str → σ → Option Err × σ
  | [], w => (none, w)
  | line :: rest, w =>
    match dl (strings.TrimSpace line) false w with
    | (some e, w1) => (some e, w1)
    | (none, w1) => scanLoop dl rest w1

/-- The function `downloadfromfile` of `main.go`, for a per-item downloader
`dl` (`run` uses `download`) and what reading the list file gives. -/
def downloadfromfile {σ : Type} (dl : Str → Bool → σ → Option Err × σ)
    (lf : ListFile) (w : σ) : Option Err × σ :=
  match lf.countLines with
  | Except.error e => (some e, w)
  | Except.ok _ =>
    match lf.openErr with
    | some e => (some e, w)
    | none =>
      match scanLoop dl lf.lines w with
      | (some e, w1) => (some e, w1)
      | (none, w1) => (lf.scanErr, w1)

/-! ## `run` -/

/-- One step of the loop of lines 85-91 of `run`. -/
def addHeader (m : Headers) (header : Str) : Headers :=
  match strings.SplitN2 header ':' with
  | [name, value] =>
    fun k => if k = strings.TrimSpace name then some (strings.TrimSpace value) else m k
  | _ => m

/-- Lines 84-91 of `run`: the header map built from the `-H` entries. -/
def buildHeaders (flagHeaders : List Str) : Headers :=
  flagHeaders.foldl addHeader (fun _ => none)

/-- How `run` ends. -/
inductive Outcome
  /-- The function returned `err`. -/
  | returned (err : Option Err)
  /-- The call `os.Exit(code)`. -/
  | exited (code : Nat)
  /-- The run-time panic of an index out of range. -/
  | panicked
  deriving DecidableEq, Repr

/-- The test of line 77 on the first positional argument. -/
def isTorrent (arg0 : Str) : Bool :=
  strings.HasPrefix arg0 "magnet".toList || strings.HasSuffix arg0 ".torrent".toList

/-- The function `run` of `main.go`. -/
def run (env : Env) (w : World) : Outcome × World :=
  if env.flagVersion then
    (Outcome.returned none, { w with calls := w.calls ++ [Call.printVersion] })
  else
    match env.args with
    | [] => (Outcome.panicked, w)
    | arg0 :: _ =>
      if isTorrent arg0 then
        (Outcome.returned (env.torrentDownload arg0),
          { w with calls := w.calls ++ [Call.torrentDownload arg0] })
      else if env.flagUseTor ∧ env.GOOS = "windows".toList then
        (Outcome.returned (some Err.torWindows), w)
      else
        let httpHeaders := buildHeaders env.flagHeaders
        if env.flagDoStat then
          (Outcome.exited 0, { w with calls := w.calls ++ [Call.visit (env.parseURL arg0)] })
        else
          let env1 : Env :=
            { env with
              httpHeaders := httpHeaders
              hpool := env.httppoolNew env.flagWorkers env.flagUseTor httpHeaders }
          if env.flagList ≠ [] then
            let r := downloadfromfile (download env1) (env.readList env.flagList) w
            (Outcome.returned r.1, r.2)
          else
            let r := download env1 arg0 true w
            (Outcome.returned r.1, r.2)

/-! ## Reading `path.Clean` element by element

Auxiliary definitions for the proofs about `path.Clean`: the elements of a
path, what one iteration does with one element, and the list of elements the
loop keeps. -/

/-- The pieces of a path between its separators: `a//b/` has the pieces
`a`, the empty piece, `b` and the empty piece. -/
def path.segments : Str → List Str
  | [] => [[]]
  | c :: cs =>
    if c = '/' then [] :: path.segments cs
    else (c :: (path.segments cs).headD []) :: (path.segments cs).tail

/-- The buffer of `path.Clean` with the separator that precedes a new
element: `if rooted && out.w != 1 || !rooted && out.w != 0 { out.append('/') }`. -/
def path.withSep (rooted : Bool) (out : Str) : Str :=
  if (rooted && out.length != 1) || (!rooted && out.length != 0) then out ++ ['/'] else out

/-- What one iteration of the loop of `path.Clean` does to the buffer and to
`dotdot` when it reads the element `seg`. -/
def path.segStep (rooted : Bool) (st : Str × Nat) (seg : Str) : Str × Nat :=
  if seg = [] ∨ seg = ['.'] then st
  else if seg = ['.', '.'] then
    if st.1.length > st.2 then (path.backtrack st.1 st.2, st.2)
    else if !rooted then
      ((if st.1.length > 0 then st.1 ++ ['/'] else st.1) ++ ['.', '.'],
        ((if st.1.length > 0 then st.1 ++ ['/'] else st.1) ++ ['.', '.']).length)
    else st
  else (path.withSep rooted st.1 ++ seg, st.2)

/-- An ordinary path element: not empty, without a separator, and neither
`.` nor `..`. -/
def path.IsName (e : Str) : Prop := e ≠ [] ∧ '/' ∉ e ∧ e ≠ ['.'] ∧ e ≠ ['.', '.']

/-- The buffer of `path.Clean` after the element `e` is appended to it. -/
def path.push (rooted : Bool) (out e : Str) : Str := path.withSep rooted out ++ e

/-- The text of a cleaned path with the given elements: they are joined by
`/`, after a leading `/` when the path is rooted. -/
def path.render (rooted : Bool) (elems : List Str) : Str :=
  elems.foldl (path.push rooted) (if rooted then ['/'] else [])

/-- The loop of `path.Clean` on the list of elements kept so far: the number
of leading `..` elements and the ordinary elements after them. -/
def path.normStep (rooted : Bool) (a : Nat × List Str) (seg : Str) : Nat × List Str :=
  if seg = [] ∨ seg = ['.'] then a
  else if seg = ['.', '.'] then
    if a.2 ≠ [] then (a.1, a.2.dropLast)
    else if rooted then a
    else (a.1 + 1, [])
  else (a.1, a.2 ++ [seg])

/-- The buffer and the value of `dotdot` that stand for a list of kept elements. -/
def path.stateOf (rooted : Bool) (a : Nat × List Str) : Str × Nat :=
  (path.render rooted (List.replicate a.1 ['.', '.'] ++ a.2),
    (path.render rooted (List.replicate a.1 ['.', '.'])).length)

/-- The kept elements are well formed: ordinary names after the `..`
elements, and no `..` element under a leading `/`. -/
def path.Kept (rooted : Bool) (a : Nat × List Str) : Prop :=
  (∀ e ∈ a.2, path.IsName e) ∧ (rooted = true → a.1 = 0)

/-- Whether a path starts with `/`. -/
def path.isRooted (p : Str) : Bool := p.head? = some '/'

/-- The elements `path.Clean` keeps of a path: the number of leading `..`
elements and the ordinary elements after them. -/
def path.kept (p : Str) : Nat × List Str :=
  (path.segments (if path.isRooted p then p.tail else p)).foldl
    (path.normStep (path.isRooted p)) (0, [])

/-- Whether, reading the elements of a URL path from `depth` ordinary
elements below the host directory, some `..` element climbs above the host
directory. -/
def path.climbs : Nat → List Str → Bool
  | _, [] => false
  | depth, seg :: rest =>
    if seg = [] ∨ seg = ['.'] then path.climbs depth rest
    else if seg = ['.', '.'] then
      match depth with
      | 0 => true
      | d + 1 => path.climbs d rest
    else path.climbs (depth + 1) rest

/-! ## Declarative readings used in the statements -/

/-- The declarative reading of the header map: `k` is bound to `v` by the last
entry with a colon whose trimmed name is `k`. -/
def LastBinding (hs : List Str) (k v : Str) : Prop :=
  ∃ pre a b post, hs = pre ++ (a ++ ':' :: b) :: post ∧ ':' ∉ a ∧
    strings.TrimSpace a = k ∧ strings.TrimSpace b = v ∧
    ∀ h ∈ post, ∀ a1 b1, h = a1 ++ ':' :: b1 → ':' ∉ a1 → strings.TrimSpace a1 ≠ k

/-- The calls `dl u false` on the given lines, in order, each returning nil,
lead from the first state to the second. -/
inductive AllNil {σ : Type} (dl : Str → Bool → σ → Option Err × σ) : List Str → σ → σ → Prop
  | done (w : σ) : AllNil dl [] w w
  | call (line : Str) (rest : List Str) (w w1 w2 : σ) :
      dl (strings.TrimSpace line) false w = (none, w1) → AllNil dl rest w1 w2 →
      AllNil dl (line :: rest) w w2

/-- A downloader that behaves as `dl` and also records the arguments of each
call it receives. -/
def recordCalls {σ : Type} (dl : Str → Bool → σ → Option Err × σ) :
    Str → Bool → σ × List (Str × Bool) → Option Err × (σ × List (Str × Bool)) :=
  fun u justone s => ((dl u justone s.1).1, ((dl u justone s.1).2, s.2 ++ [(u, justone)]))

/-! ## Sample inputs -/

/-- What `parseURL` gives on the URLs of the examples: host, path and
rendered text as `net/url` parses them. -/
def sampleParse (u : Str) : URL :=
  if u = "http://h/a".toList then ⟨"h".toList, "/a".toList, u⟩
  else if u = "http://h/d/".toList then ⟨"h".toList, "/d/".toList, u⟩
  else if u = "http://h/d/?q=1".toList then ⟨"h".toList, "/d/".toList, u⟩
  else if u = "http://h/../../x".toList then ⟨"h".toList, "/../../x".toList, u⟩
  else ⟨[], [], u⟩

/-- A pool that answers every request with the two-byte body `[9, 9]`. -/
def samplePool : Pool := fun _ _ => Except.ok ⟨[9, 9], none⟩

/-- A run on Linux with no flag set and no positional argument. -/
def sampleEnv : Env where
  flagVersion := false
  flagUseTor := false
  flagDoStat := false
  flagGzip := false
  flagNoClobber := false
  flagVerbose := false
  flagWorkers := 1
  flagList := []
  flagOutfile := []
  flagHeaders := []
  args := []
  GOOS := "linux".toList
  httpHeaders := fun _ => none
  hpool := samplePool
  parseURL := sampleParse
  httppoolNew := fun _ _ _ => samplePool
  torrentDownload := fun _ => none
  gzipEncode := fun b => 31 :: 139 :: b
  readList := fun _ => ⟨Except.ok 0, none, [], none⟩

/-- The empty filesystem. -/
def emptyFS : FS := fun _ => none

/-- A filesystem in which `a` and every `a.N` with `N < bound` is a regular
file, and nothing else exists. -/
def crowdedUpTo (bound : Nat) : FS := fun p =>
  if p = "a".toList ∨ p ∈ (List.range bound).map (fmt.SprintfSD "a".toList) then
    some (Entry.file [])
  else none

/-- A filesystem in which `a` and every `a.N` with `N < 1000000` is a
regular file. -/
def crowdedFS : FS := crowdedUpTo 1000000

/-- A downloader on a counter: it fails on the line `bad` and counts its calls. -/
def sampleDl : Str → Bool → Nat → Option Err × Nat :=
  fun u _ n => (if u = "bad".toList then some (Err.ext 7) else none, n + 1)

/-- A list file with the three lines `a`, ` bad ` and `c`. -/
def sampleList : ListFile :=
  ⟨Except.ok 3, none, ["a".toList, " bad ".toList, "c".toList], none⟩

/-- The sample run with gzip and no-clobber switched on. -/
def gzipNoClobberEnv : Env := { sampleEnv with flagGzip := true, flagNoClobber := true }

/-- The sample run with `-o out.txt`. -/
def outfileEnv : Env := { sampleEnv with flagOutfile := "out.txt".toList }

/-- The sample run with `-i urls.txt` and no positional argument. -/
def batchOnlyEnv : Env := { sampleEnv with flagList := "urls.txt".toList }

/-- The sample run on Windows with `-version -tor`. -/
def versionTorEnv : Env :=
  { sampleEnv with flagVersion := true, flagUseTor := true, GOOS := "windows".toList }

/-- The sample run on Windows with `-tor` and a magnet link as argument. -/
def magnetTorEnv : Env :=
  { sampleEnv with
    flagUseTor := true, GOOS := "windows".toList, args := ["magnet:?xt=urn:btih:0".toList] }

/-- The sample run with a parser that answers the URL `http://h/a/../b`:
host `h`, path `/a/../b`. -/
def dotdotEnv : Env :=
  { sampleEnv with
    parseURL := fun u => ⟨"h".toList, "/a/../b".toList, u⟩ }

/-- The sample run on Windows with `-tor -i urls.txt http://h/a`. -/
def torWindowsEnv : Env :=
  { sampleEnv with
    flagUseTor := true, GOOS := "windows".toList, flagList := "urls.txt".toList,
    args := ["http://h/a".toList] }

/-- A filesystem whose only entry is the regular file `a` with one byte. -/
def oneFileFS : FS := emptyFS.set "a".toList (Entry.file [1])

/-- A filesystem whose only entry is the six-byte regular file `out.txt`. -/
def outfileFS : FS := emptyFS.set "out.txt".toList (Entry.file [1, 2, 3, 4, 5, 6])

/-! # Lemmas -/

theorem suffixLoop_least (fs : FS) (p : Str) :
    ∀ (n a N : Nat), a ≤ N → N < a + n → os.Stat fs (fmt.SprintfSD p N) = none →
      ∃ k, a ≤ k ∧ k ≤ N ∧ suffixLoop fs p n a = fmt.SprintfSD p k ∧
        os.Stat fs (fmt.SprintfSD p k) = none ∧
        ∀ m, a ≤ m → m < k → os.Stat fs (fmt.SprintfSD p m) ≠ none := by
  intro n
  induction n with
  | zero => intro a N h1 h2; omega
  | succ n ih =>
    intro a N h1 h2 hN
    by_cases ha : os.Stat fs (fmt.SprintfSD p a) = none
    · refine ⟨a, le_refl a, h1, ?_, ha, ?_⟩
      · simp [suffixLoop, ha]
      · intro m hm1 hm2; omega
    · have hne : a ≠ N := by
        intro h; subst h; exact ha hN
      obtain ⟨k, hk1, hk2, hk3, hk4, hk5⟩ := ih (a + 1) N (by omega) (by omega) hN
      refine ⟨k, by omega, hk2, ?_, hk4, ?_⟩
      · simp [suffixLoop, ha, hk3]
      · intro m hm1 hm2
        by_cases hma : m = a
        · subst hma; exact ha
        · exact hk5 m (by omega) hm2

theorem suffixLoop_exhausted (fs : FS) (p : Str) :
    ∀ (n a : Nat), (∀ m, a ≤ m → m < a + n → os.Stat fs (fmt.SprintfSD p m) ≠ none) →
      suffixLoop fs p n a = p := by
  intro n
  induction n with
  | zero => intro a _; rfl
  | succ n ih =>
    intro a h
    have ha := h a (le_refl a) (by omega)
    simp only [suffixLoop, ha, if_false]
    exact ih (a + 1) (fun m h1 h2 => h m (by omega) (by omega))

theorem scanLoop_append {σ : Type} (dl : Str → Bool → σ → Option Err × σ)
    (pre rest : List Str) (w wk : σ) (h : AllNil dl pre w wk) :
    scanLoop dl (pre ++ rest) w = scanLoop dl rest wk := by
  induction h with
  | done w => rfl
  | call line tl w w1 w2 hcall _ ih =>
    simp only [List.cons_append, scanLoop, hcall]
    exact ih

theorem allNil_record {σ : Type} (dl : Str → Bool → σ → Option Err × σ)
    (pre : List Str) (w wk : σ) (h : AllNil dl pre w wk) (log : List (Str × Bool)) :
    AllNil (recordCalls dl) pre (w, log)
      (wk, log ++ pre.map (fun x => (strings.TrimSpace x, false))) := by
  induction h generalizing log with
  | done w => simpa using AllNil.done (w, log)
  | call line tl w w1 w2 hcall _ ih =>
    have h1 : recordCalls dl (strings.TrimSpace line) false (w, log)
        = (none, (w1, log ++ [(strings.TrimSpace line, false)])) := by
      simp [recordCalls, hcall]
    have h2 := ih (log ++ [(strings.TrimSpace line, false)])
    have h3 := AllNil.call line tl _ _ _ h1 h2
    simpa using h3

theorem scanLoop_fail {σ : Type} (dl : Str → Bool → σ → Option Err × σ)
    (l : Str) (post : List Str) (wk : σ)
    (h : (dl (strings.TrimSpace l) false wk).1 ≠ none) :
    scanLoop dl (l :: post) wk = dl (strings.TrimSpace l) false wk := by
  rcases hd : dl (strings.TrimSpace l) false wk with ⟨e, w1⟩
  rw [hd] at h
  cases e with
  | none => exact absurd rfl h
  | some e => simp [scanLoop, hd]

theorem dff_of_scan {σ : Type} (dl : Str → Bool → σ → Option Err × σ) (lf : ListFile) (w : σ)
    (n : Int) (hcount : lf.countLines = Except.ok n) (hopen : lf.openErr = none) :
    downloadfromfile dl lf w =
      if (scanLoop dl lf.lines w).1 = none then (lf.scanErr, (scanLoop dl lf.lines w).2)
      else scanLoop dl lf.lines w := by
  rcases hs : scanLoop dl lf.lines w with ⟨e, w1⟩
  cases e <;> simp [downloadfromfile, hcount, hopen, hs]

theorem indexByte_none (s : Str) (c : Char) (h : c ∉ s) : strings.IndexByte s c = none := by
  induction s with
  | nil => rfl
  | cons x xs ih =>
    have hx : x ≠ c := fun e => h (by simp [e])
    have hxs : c ∉ xs := fun e => h (by simp [e])
    simp [strings.IndexByte, hx, ih hxs]

theorem indexByte_append (a b : Str) (c : Char) (h : c ∉ a) :
    strings.IndexByte (a ++ c :: b) c = some a.length := by
  induction a with
  | nil => simp [strings.IndexByte]
  | cons x xs ih =>
    have hx : x ≠ c := fun e => h (by simp [e])
    have hxs : c ∉ xs := fun e => h (by simp [e])
    simp [strings.IndexByte, hx, ih hxs]

theorem splitN2_cut (a b : Str) (c : Char) (h : c ∉ a) :
    strings.SplitN2 (a ++ c :: b) c = [a, b] := by
  simp [strings.SplitN2, indexByte_append a b c h]

theorem splitN2_whole (s : Str) (c : Char) (h : c ∉ s) : strings.SplitN2 s c = [s] := by
  simp [strings.SplitN2, indexByte_none s c h]

theorem exists_cut (s : Str) (c : Char) (h : c ∈ s) :
    ∃ a b, s = a ++ c :: b ∧ c ∉ a := by
  induction s with
  | nil => simp at h
  | cons x xs ih =>
    by_cases hx : x = c
    · exact ⟨[], xs, by simp [hx], by simp⟩
    · have hxs : c ∈ xs := by
        rcases List.mem_cons.mp h with e | e
        · exact absurd e.symm hx
        · exact e
      obtain ⟨a, b, hab, ha⟩ := ih hxs
      refine ⟨x :: a, b, by simp [hab], ?_⟩
      intro hm
      rcases List.mem_cons.mp hm with e | e
      · exact hx e.symm
      · exact ha e

theorem cut_unique (a b a1 b1 : Str) (c : Char) (h : a ++ c :: b = a1 ++ c :: b1)
    (ha : c ∉ a) (ha1 : c ∉ a1) : a = a1 ∧ b = b1 := by
  have h1 := splitN2_cut a b c ha
  rw [h, splitN2_cut a1 b1 c ha1] at h1
  simp at h1
  exact ⟨h1.1.symm, h1.2.symm⟩

theorem addHeader_cut (m : Headers) (a b k : Str) (h : ':' ∉ a) :
    addHeader m (a ++ ':' :: b) k =
      if k = strings.TrimSpace a then some (strings.TrimSpace b) else m k := by
  simp [addHeader, splitN2_cut a b ':' h]

theorem addHeader_whole (m : Headers) (s : Str) (h : ':' ∉ s) : addHeader m s = m := by
  simp [addHeader, splitN2_whole s ':' h]

theorem snoc_split {α : Type} (pre post hs : List α) (x h : α)
    (e : hs ++ [h] = pre ++ x :: post) :
    (post = [] ∧ pre = hs ∧ x = h) ∨ ∃ post1, post = post1 ++ [h] ∧ hs = pre ++ x :: post1 := by
  rcases List.eq_nil_or_concat post with hp | ⟨post1, y, hp⟩
  · subst hp
    left
    have e2 : hs ++ [h] = pre ++ [x] := e
    have := List.append_inj' e2 rfl
    simp at this
    exact ⟨rfl, this.1.symm, this.2.symm⟩
  · rw [List.concat_eq_append] at hp
    subst hp
    right
    have e2 : hs ++ [h] = (pre ++ x :: post1) ++ [y] := by simpa using e
    have := List.append_inj' e2 rfl
    simp at this
    refine ⟨post1, ?_, this.1⟩
    rw [this.2]

theorem lastBinding_snoc_cut (hs : List Str) (a0 b0 k v : Str) (h0 : ':' ∉ a0) :
    LastBinding (hs ++ [a0 ++ ':' :: b0]) k v ↔
      if k = strings.TrimSpace a0 then v = strings.TrimSpace b0 else LastBinding hs k v := by
  constructor
  · rintro ⟨pre, a, b, post, e, ha, hk, hv, hpost⟩
    rcases snoc_split pre post hs _ _ e with ⟨hp, _, hx⟩ | ⟨post1, hp, hhs⟩
    · obtain ⟨e1, e2⟩ := cut_unique a b a0 b0 ':' hx ha h0
      subst e1 e2
      simp [hk.symm, hv.symm]
    · have hne : strings.TrimSpace a0 ≠ k :=
        hpost _ (by simp [hp]) a0 b0 rfl h0
      rw [if_neg (fun e => hne e.symm)]
      refine ⟨pre, a, b, post1, hhs, ha, hk, hv, ?_⟩
      intro h hh
      exact hpost h (by simp [hp, hh])
  · intro h
    split at h
    · rename_i hk
      exact ⟨hs, a0, b0, [], rfl, h0, hk.symm, h.symm, by simp⟩
    · rename_i hk
      obtain ⟨pre, a, b, post, e, ha, hk1, hv, hpost⟩ := h
      refine ⟨pre, a, b, post ++ [a0 ++ ':' :: b0], by simp [e], ha, hk1, hv, ?_⟩
      intro h hh a1 b1 e1 ha1
      rcases List.mem_append.mp hh with hh | hh
      · exact hpost h hh a1 b1 e1 ha1
      · simp at hh
        rw [hh] at e1
        obtain ⟨e2, _⟩ := cut_unique a0 b0 a1 b1 ':' e1 h0 ha1
        rw [← e2]
        exact fun e => hk e.symm

theorem lastBinding_snoc_whole (hs : List Str) (s k v : Str) (h0 : ':' ∉ s) :
    LastBinding (hs ++ [s]) k v ↔ LastBinding hs k v := by
  constructor
  · rintro ⟨pre, a, b, post, e, ha, hk, hv, hpost⟩
    rcases snoc_split pre post hs _ _ e with ⟨_, _, hx⟩ | ⟨post1, hp, hhs⟩
    · exact absurd (by simp [← hx]) h0
    · refine ⟨pre, a, b, post1, hhs, ha, hk, hv, ?_⟩
      intro h hh
      exact hpost h (by simp [hp, hh])
  · rintro ⟨pre, a, b, post, e, ha, hk1, hv, hpost⟩
    refine ⟨pre, a, b, post ++ [s], by simp [e], ha, hk1, hv, ?_⟩
    intro h hh a1 b1 e1 ha1
    rcases List.mem_append.mp hh with hh | hh
    · exact hpost h hh a1 b1 e1 ha1
    · simp at hh
      exact absurd (by simp [← hh, e1]) h0

theorem segments_ne_nil (p : Str) : path.segments p ≠ [] := by
  cases p with
  | nil => simp [path.segments]
  | cons c cs => by_cases h : c = '/' <;> simp [path.segments, h]

theorem segments_takeWhile (p : Str) :
    path.segments p = p.takeWhile (· != '/') ::
      (match p.dropWhile (· != '/') with
        | [] => []
        | _ :: r => path.segments r) := by
  induction p with
  | nil => simp [path.segments]
  | cons c cs ih =>
    by_cases h : c = '/'
    · simp [path.segments, h]
    · have h2 : (c != '/') = true := by simpa using h
      rw [path.segments, if_neg h, ih]
      simp [List.takeWhile_cons, List.dropWhile_cons, h2]

theorem segments_append_slash (s t : Str) :
    path.segments (s ++ '/' :: t) = path.segments s ++ path.segments t := by
  induction s with
  | nil => simp [path.segments]
  | cons c cs ih =>
    by_cases h : c = '/'
    · simp [path.segments, h, ih]
    · have hne := segments_ne_nil cs
      obtain ⟨x, xs, hx⟩ := List.exists_cons_of_ne_nil hne
      simp [path.segments, h, ih, hx]

theorem segments_noslash (e : Str) (h : '/' ∉ e) : path.segments e = [e] := by
  induction e with
  | nil => simp [path.segments]
  | cons c cs ih =>
    have hc : c ≠ '/' := fun e => h (by simp [e])
    have hcs : '/' ∉ cs := fun e => h (by simp [e])
    simp [path.segments, hc, ih hcs]

theorem cleanLoop_slash (rooted : Bool) (fuel : Nat) (rest out : Str) (dd : Nat) :
    path.cleanLoop rooted (fuel + 1) ('/' :: rest) out dd
      = path.cleanLoop rooted fuel rest out dd := by
  simp [path.cleanLoop]

theorem cleanLoop_elem (rooted : Bool) (fuel : Nat) (c : Char) (rest out : Str) (dd : Nat)
    (hc : c ≠ '/') :
    path.cleanLoop rooted (fuel + 1) (c :: rest) out dd
      = path.cleanLoop rooted fuel (rest.dropWhile (· != '/'))
          (path.segStep rooted (out, dd) (c :: rest.takeWhile (· != '/'))).1
          (path.segStep rooted (out, dd) (c :: rest.takeWhile (· != '/'))).2 := by
  cases rest with
  | nil =>
    by_cases h1 : c = '.'
    · simp [path.cleanLoop, path.segStep, hc, h1]
    · simp [path.cleanLoop, path.segStep, path.withSep, hc, h1]
  | cons d rest1 =>
    by_cases hd : d = '/'
    · subst hd
      by_cases h1 : c = '.'
      · simp [path.cleanLoop, path.segStep, hc, h1]
      · simp [path.cleanLoop, path.segStep, path.withSep, hc, h1]
    · have hd2 : (d != '/') = true := by simpa using hd
      by_cases h1 : c = '.' ∧ d = '.'
      · obtain ⟨h1, h2⟩ := h1
        subst h1 h2
        cases rest1 with
        | nil =>
          simp [path.cleanLoop, path.segStep]
          split_ifs <;> rfl
        | cons e rest2 =>
          by_cases he : e = '/'
          · subst he
            simp [path.cleanLoop, path.segStep]
            split_ifs <;> rfl
          · have he2 : (e != '/') = true := by simpa using he
            simp [path.cleanLoop, path.segStep, path.withSep, he, he2, List.takeWhile_cons,
              List.dropWhile_cons]
      · have htw : (d :: rest1).takeWhile (· != '/') = d :: rest1.takeWhile (· != '/') := by
          simp [List.takeWhile_cons, hd2]
        have hdw : (d :: rest1).dropWhile (· != '/') = rest1.dropWhile (· != '/') := by
          simp [List.dropWhile_cons, hd2]
        have hS : path.segStep rooted (out, dd) (c :: d :: rest1.takeWhile (· != '/'))
            = (path.withSep rooted out ++ c :: d :: rest1.takeWhile (· != '/'), dd) := by
          have a1 : ¬ (c :: d :: rest1.takeWhile (· != '/') = [] ∨
              c :: d :: rest1.takeWhile (· != '/') = ['.']) := by simp
          have a2 : ¬ (c :: d :: rest1.takeWhile (· != '/') = ['.', '.']) := by
            intro e
            simp only [List.cons.injEq] at e
            exact h1 ⟨e.1, e.2.1⟩
          rw [path.segStep, if_neg a1, if_neg a2]
        have b1 : ¬ (c = '.' ∧ (d :: rest1 = [] ∨ (d :: rest1).head? = some '/')) := by
          simp [hd]
        have b2 : ¬ (c = '.' ∧ (d :: rest1).head? = some '.' ∧
            ((d :: rest1).tail = [] ∨ (d :: rest1).tail.head? = some '/')) := by
          intro e
          simp only [List.head?_cons, Option.some.injEq] at e
          exact h1 ⟨e.1, e.2.1⟩
        rw [htw, hdw, hS, path.cleanLoop, if_neg hc, if_neg b1, if_neg b2, htw, hdw]
        rfl

theorem segStep_nil (rooted : Bool) (st : Str × Nat) : path.segStep rooted st [] = st := by
  simp [path.segStep]

theorem dropWhile_head_slash (l : Str) (x : Char) (r : Str)
    (h : l.dropWhile (· != '/') = x :: r) : x = '/' := by
  induction l with
  | nil => simp at h
  | cons c cs ih =>
    by_cases hc : c = '/'
    · subst hc
      simp [List.dropWhile_cons] at h
      exact h.1.symm
    · have h2 : (c != '/') = true := by simpa using hc
      rw [List.dropWhile_cons, if_pos h2] at h
      exact ih h

theorem foldl_segments_dropWhile (rooted : Bool) (l : Str) (st : Str × Nat) :
    (path.segments (l.dropWhile (· != '/'))).foldl (path.segStep rooted) st
      = (match l.dropWhile (· != '/') with
          | [] => []
          | _ :: r => path.segments r).foldl (path.segStep rooted) st := by
  rcases hd : l.dropWhile (· != '/') with _ | ⟨x, r⟩
  · simp [path.segments, segStep_nil]
  · have hx := dropWhile_head_slash l x r hd
    subst hx
    simp [path.segments, segStep_nil]

theorem cleanLoop_segments (rooted : Bool) :
    ∀ (fuel : Nat) (p out : Str) (dd : Nat), p.length ≤ fuel →
      path.cleanLoop rooted fuel p out dd
        = ((path.segments p).foldl (path.segStep rooted) (out, dd)).1 := by
  intro fuel
  induction fuel with
  | zero =>
    intro p out dd h
    have hp : p = [] := List.length_eq_zero.mp (Nat.le_zero.mp h)
    subst hp
    simp [path.cleanLoop, path.segments, segStep_nil]
  | succ fuel ih =>
    intro p out dd h
    cases p with
    | nil => simp [path.cleanLoop, path.segments, segStep_nil]
    | cons c rest =>
      have hrest : rest.length ≤ fuel := by simpa using h
      by_cases hc : c = '/'
      · subst hc
        rw [cleanLoop_slash, ih rest out dd hrest]
        simp [path.segments, segStep_nil]
      · have h2 : (c != '/') = true := by simpa using hc
        have hlen : (rest.dropWhile (· != '/')).length ≤ fuel :=
          le_trans (List.dropWhile_sublist _).length_le hrest
        rw [cleanLoop_elem rooted fuel c rest out dd hc, ih _ _ _ hlen,
          segments_takeWhile (c :: rest)]
        rw [List.takeWhile_cons, if_pos h2, List.dropWhile_cons, if_pos h2, List.foldl_cons,
          foldl_segments_dropWhile]

/-- The bound on the iterations of the loop of `path.Clean` is never what
ends it: any bound from the length of the unread input on gives the same
result. -/
theorem cleanLoop_fuel (rooted : Bool) (fuel : Nat) (p out : Str) (dd : Nat)
    (h : p.length ≤ fuel) :
    path.cleanLoop rooted fuel p out dd = path.cleanLoop rooted p.length p out dd := by
  rw [cleanLoop_segments rooted fuel p out dd h,
    cleanLoop_segments rooted p.length p out dd (le_refl _)]

/-! ### Backtracking stays above `dotdot` -/

theorem backtrackLoop_ge (buf : Str) (dd : Nat) :
    ∀ w, dd ≤ w → dd ≤ path.backtrackLoop buf dd w := by
  intro w
  induction w with
  | zero => intro h; simpa [path.backtrackLoop] using h
  | succ w ih =>
    intro h
    rw [path.backtrackLoop]
    split
    · rename_i hc
      exact ih (by omega)
    · exact h

theorem head?_take_pos (l : Str) (k : Nat) (hk : 1 ≤ k) : (l.take k).head? = l.head? := by
  cases l with
  | nil => simp
  | cons c cs =>
    cases k with
    | zero => omega
    | succ k => simp

theorem head?_backtrack (out : Str) (dd : Nat) (h1 : 1 ≤ dd) (h2 : dd < out.length) :
    (path.backtrack out dd).head? = out.head? := by
  unfold path.backtrack
  apply head?_take_pos
  exact le_trans h1 (backtrackLoop_ge out dd _ (by omega))

/-- Under a leading `/`, every step keeps the buffer starting with `/` and
`dotdot` at 1. -/
theorem segStep_rooted (st : Str × Nat) (seg : Str)
    (h : st.1.head? = some '/' ∧ st.2 = 1) :
    (path.segStep true st seg).1.head? = some '/' ∧ (path.segStep true st seg).2 = 1 := by
  obtain ⟨out, dd⟩ := st
  obtain ⟨h1, h2⟩ := h
  simp only at h1 h2
  subst h2
  unfold path.segStep
  split
  · exact ⟨h1, rfl⟩
  · split
    · split
      · rename_i hlen
        exact ⟨by rw [head?_backtrack out 1 (le_refl 1) hlen]; exact h1, rfl⟩
      · simp [h1]
    · refine ⟨?_, rfl⟩
      cases out with
      | nil => simp at h1
      | cons c cs =>
        simp only [List.head?_cons] at h1
        simp [path.withSep, h1]
        split <;> simp [Option.some.inj h1]

theorem foldl_rooted (segs : List Str) (st : Str × Nat)
    (h : st.1.head? = some '/' ∧ st.2 = 1) :
    (segs.foldl (path.segStep true) st).1.head? = some '/' ∧
      (segs.foldl (path.segStep true) st).2 = 1 := by
  induction segs generalizing st with
  | nil => exact h
  | cons s ss ih => exact ih _ (segStep_rooted st s h)


theorem segStep_name (rooted : Bool) (st : Str × Nat) (e : Str) (he : path.IsName e) :
    path.segStep rooted st e = (path.withSep rooted st.1 ++ e, st.2) := by
  obtain ⟨h1, _, h3, h4⟩ := he
  have a1 : ¬ (e = [] ∨ e = ['.']) := by
    intro h; rcases h with h | h
    · exact h1 h
    · exact h3 h
  rw [path.segStep, if_neg a1, if_neg h4]

/-- Cleaning a path that ends with `/e`, for an ordinary element `e`, gives
`e` itself or a path that ends with `/e`. -/
theorem clean_last_name (s e : Str) (he : path.IsName e) :
    path.Clean (s ++ '/' :: e) = e ∨ ∃ pre, path.Clean (s ++ '/' :: e) = pre ++ '/' :: e := by
  have hne : e ≠ [] := he.1
  have hseg : path.segments e = [e] := segments_noslash e he.2.1
  have hp : s ++ '/' :: e ≠ [] := by simp
  unfold path.Clean
  rw [if_neg hp]
  cases s with
  | nil =>
    right
    refine ⟨[], ?_⟩
    simp only [List.nil_append, List.head?_cons, decide_True, if_true, List.tail_cons]
    rw [cleanLoop_segments true _ e _ _ (by simp), hseg]
    simp [segStep_name true _ e he, path.withSep]
  | cons c s1 =>
    by_cases hc : c = '/'
    · subst hc
      right
      simp only [List.cons_append, List.head?_cons, decide_True, if_true, List.tail_cons]
      rw [cleanLoop_segments true _ _ _ _ (by simp), segments_append_slash, hseg,
        List.foldl_append]
      obtain ⟨r1, r2⟩ := foldl_rooted (path.segments s1) (['/'], 1) ⟨rfl, rfl⟩
      simp only [List.foldl_cons, List.foldl_nil, segStep_name true _ e he]
      generalize (List.foldl (path.segStep true) (['/'], 1) (path.segments s1)).1 = out at r1
      cases out with
      | nil => simp at r1
      | cons x xs =>
        simp only [List.head?_cons, Option.some.injEq] at r1
        subst r1
        cases xs with
        | nil => exact ⟨[], by simp [path.withSep, hne]⟩
        | cons y ys => exact ⟨'/' :: y :: ys, by simp [path.withSep]⟩
    · have hh : (decide ((c :: s1 ++ '/' :: e).head? = some '/')) = false := by
        simp [hc]
      simp only [hh, Bool.false_eq_true, if_false]
      rw [cleanLoop_segments false _ _ _ _ (le_refl _)]
      have : c :: s1 ++ '/' :: e = (c :: s1) ++ '/' :: e := rfl
      rw [this, segments_append_slash, hseg, List.foldl_append]
      simp only [List.foldl_cons, List.foldl_nil, segStep_name false _ e he]
      generalize (List.foldl (path.segStep false) ([], 0) (path.segments (c :: s1))).1 = out
      cases out with
      | nil => left; simp [path.withSep, hne]
      | cons x xs => right; exact ⟨x :: xs, by simp [path.withSep]⟩

/-! ### The inner loop of the `..` case finds the last separator -/

theorem backtrackLoop_sep (base e : Str) (dd : Nat) (he : '/' ∉ e) (hdd : dd ≤ base.length) :
    ∀ j, j ≤ e.length →
      path.backtrackLoop (base ++ '/' :: e) dd (base.length + j) = base.length := by
  intro j
  induction j with
  | zero =>
    intro _
    cases hb : base.length with
    | zero => simp [path.backtrackLoop]
    | succ n =>
      have hidx : (base ++ '/' :: e)[n + 1]? = some '/' := by
        rw [List.getElem?_append_right (by omega)]
        simp [hb]
      simp [path.backtrackLoop, hidx]
  | succ j ih =>
    intro hj
    have hidx : (base ++ '/' :: e)[base.length + j + 1]? ≠ some '/' := by
      rw [List.getElem?_append_right (by omega)]
      have : base.length + j + 1 - base.length = j + 1 := by omega
      rw [this, List.getElem?_cons_succ]
      intro h
      exact he (List.getElem?_mem h)
    have hgt : base.length + j + 1 > dd := by omega
    show path.backtrackLoop (base ++ '/' :: e) dd (base.length + j + 1) = base.length
    rw [path.backtrackLoop, if_pos ⟨hgt, hidx⟩]
    exact ih (by omega)

theorem backtrackLoop_stop (base e : Str) (he : '/' ∉ e) :
    ∀ j, path.backtrackLoop (base ++ e) base.length (base.length + j) = base.length := by
  intro j
  induction j with
  | zero =>
    cases hb : base.length with
    | zero => simp [path.backtrackLoop]
    | succ n => simp [path.backtrackLoop]
  | succ j ih =>
    have hidx : (base ++ e)[base.length + j + 1]? ≠ some '/' := by
      rw [List.getElem?_append_right (by omega)]
      intro h
      exact he (List.getElem?_mem h)
    have hgt : base.length + j + 1 > base.length := by omega
    show path.backtrackLoop (base ++ e) base.length (base.length + j + 1) = base.length
    rw [path.backtrackLoop, if_pos ⟨hgt, hidx⟩]
    exact ih

theorem backtrack_sep (base e : Str) (dd : Nat) (he : '/' ∉ e) (hdd : dd ≤ base.length) :
    path.backtrack (base ++ '/' :: e) dd = base := by
  unfold path.backtrack
  have hl : (base ++ '/' :: e).length - 1 = base.length + e.length := by simp
  rw [hl, backtrackLoop_sep base e dd he hdd e.length (le_refl _)]
  exact List.take_left base _

theorem backtrack_stop (base e : Str) (he : '/' ∉ e) (hne : e ≠ []) :
    path.backtrack (base ++ e) base.length = base := by
  unfold path.backtrack
  obtain ⟨c, cs, rfl⟩ := List.exists_cons_of_ne_nil hne
  have hl : (base ++ c :: cs).length - 1 = base.length + cs.length := by simp
  rw [hl, backtrackLoop_stop base (c :: cs) he cs.length]
  exact List.take_left base _

/-! ### The rendered text -/

theorem render_snoc (rooted : Bool) (els : List Str) (e : Str) :
    path.render rooted (els ++ [e]) = path.push rooted (path.render rooted els) e := by
  simp [path.render, List.foldl_append]

theorem length_push_ge (rooted : Bool) (out e : Str) :
    out.length + e.length ≤ (path.push rooted out e).length := by
  unfold path.push path.withSep
  split
  · simp only [List.length_append, List.length_singleton]; omega
  · simp only [List.length_append]; omega

theorem length_le_push (rooted : Bool) (out e : Str) :
    out.length ≤ (path.push rooted out e).length :=
  le_trans (Nat.le_add_right _ _) (length_push_ge rooted out e)

theorem length_render_le (rooted : Bool) (a b : List Str) :
    (path.render rooted a).length ≤ (path.render rooted (a ++ b)).length := by
  induction b using List.reverseRecOn with
  | nil => simp
  | append_singleton b e ih =>
    rw [← List.append_assoc, render_snoc]
    exact le_trans ih (length_le_push _ _ _)

theorem render_true_head (els : List Str) : (path.render true els).head? = some '/' := by
  induction els using List.reverseRecOn with
  | nil => simp [path.render]
  | append_singleton b e ih =>
    rw [render_snoc]
    unfold path.push path.withSep
    cases h : path.render true b with
    | nil => simp [h] at ih
    | cons c cs =>
      rw [h] at ih
      split <;> simpa using ih

/-- A rendered path is empty only without elements (not rooted), and is the
bare root only without elements (rooted). -/
theorem render_small (rooted : Bool) (els : List Str) (hne : ∀ e ∈ els, e ≠ [])
    (h : (path.render rooted els).length = if rooted then 1 else 0) : els = [] := by
  rcases List.eq_nil_or_concat els with he | ⟨b, e, he⟩
  · exact he
  · rw [List.concat_eq_append] at he
    subst he
    exfalso
    have hene : e ≠ [] := hne e (by simp)
    have hpos : 0 < e.length := List.length_pos.mpr hene
    rw [render_snoc] at h
    have hge := length_push_ge rooted (path.render rooted b) e
    cases rooted with
    | true =>
      have hh := render_true_head b
      have hlen : 1 ≤ (path.render true b).length := by
        cases hb : path.render true b with
        | nil => simp [hb] at hh
        | cons c cs => simp
      simp only [if_true] at h
      omega
    | false =>
      simp only [Bool.false_eq_true, if_false] at h
      omega

theorem push_eq (rooted : Bool) (els : List Str) (e : Str) (hne : ∀ x ∈ els, x ≠ []) :
    path.push rooted (path.render rooted els) e =
      if els = [] then path.render rooted [] ++ e
      else path.render rooted els ++ '/' :: e := by
  by_cases hels : els = []
  · subst hels
    cases rooted <;> simp [path.push, path.withSep, path.render]
  · rw [if_neg hels]
    have hlen : (path.render rooted els).length ≠ if rooted then 1 else 0 :=
      fun h => hels (render_small rooted els hne h)
    cases rooted with
    | true =>
      simp only [if_true] at hlen
      simp [path.push, path.withSep, hlen]
    | false =>
      simp only [Bool.false_eq_true, if_false] at hlen
      have : path.render false els ≠ [] := fun h => hlen (by simp [h])
      simp [path.push, path.withSep, this]

theorem kept_ne_nil (rooted : Bool) (a : Nat × List Str) (h : path.Kept rooted a) :
    ∀ x ∈ List.replicate a.1 ['.', '.'] ++ a.2, x ≠ [] := by
  intro x hx
  rcases List.mem_append.mp hx with h1 | h1
  · rw [(List.mem_replicate.mp h1).2]; simp
  · exact (h.1 x h1).1

theorem normStep_kept (rooted : Bool) (a : Nat × List Str) (seg : Str) (hseg : '/' ∉ seg)
    (h : path.Kept rooted a) : path.Kept rooted (path.normStep rooted a seg) := by
  obtain ⟨k, names⟩ := a
  obtain ⟨h1, h2⟩ := h
  unfold path.normStep
  split
  · exact ⟨h1, h2⟩
  · rename_i hs
    split
    · split
      · exact ⟨fun e he => h1 e (List.mem_of_mem_dropLast he), h2⟩
      · split
        · exact ⟨h1, h2⟩
        · rename_i hr
          exact ⟨by simp, fun hh => absurd hh hr⟩
    · rename_i hd
      refine ⟨?_, h2⟩
      intro e he
      rcases List.mem_append.mp he with h3 | h3
      · exact h1 e h3
      · simp at h3
        subst h3
        exact ⟨fun h => hs (Or.inl h), hseg, fun h => hs (Or.inr h), hd⟩

theorem segStep_stateOf (rooted : Bool) (a : Nat × List Str) (seg : Str)
    (h : path.Kept rooted a) :
    path.segStep rooted (path.stateOf rooted a) seg
      = path.stateOf rooted (path.normStep rooted a seg) := by
  obtain ⟨k, names⟩ := a
  have hne := kept_ne_nil rooted (k, names) h
  obtain ⟨h1, h2⟩ := h
  simp only at h1 h2 hne
  unfold path.segStep path.normStep
  by_cases hs : seg = [] ∨ seg = ['.']
  · rw [if_pos hs, if_pos hs]
  · rw [if_neg hs, if_neg hs]
    by_cases hd : seg = ['.', '.']
    · rw [if_pos hd, if_pos hd]
      rcases List.eq_nil_or_concat names with hn | ⟨ns, e, hn⟩
      · subst hn
        have hlt : ¬ ((path.stateOf rooted (k, [])).1.length > (path.stateOf rooted (k, [])).2) := by
          simp [path.stateOf]
        rw [if_neg hlt]
        cases rooted with
        | true => simp
        | false =>
          simp only [Bool.not_false, if_true, ne_eq, not_true_eq_false, if_false,
            Bool.false_eq_true]
          have e1 : ((if (path.stateOf false (k, [])).1.length > 0 then
                (path.stateOf false (k, [])).1 ++ ['/'] else (path.stateOf false (k, [])).1)
                ++ ['.', '.'])
              = path.render false (List.replicate (k + 1) ['.', '.']) := by
            rw [List.replicate_succ', render_snoc]
            simp only [path.stateOf, List.append_nil, path.push, path.withSep]
            by_cases hl : (path.render false (List.replicate k ['.', '.'])).length = 0
            · simp [hl]
            · have : 0 < (path.render false (List.replicate k ['.', '.'])).length := by omega
              simp [hl, this]
          rw [e1]
          simp [path.stateOf]
      · rw [List.concat_eq_append] at hn
        subst hn
        have hnn : ns ++ [e] ≠ [] := by simp
        have hee : path.IsName e := h1 e (by simp)
        have hne2 : ∀ x ∈ List.replicate k ['.', '.'] ++ ns, x ≠ [] :=
          fun x hx => hne x (by
            rcases List.mem_append.mp hx with h3 | h3
            · exact List.mem_append.mpr (Or.inl h3)
            · exact List.mem_append.mpr (Or.inr (List.mem_append.mpr (Or.inl h3))))
        have hout : (path.stateOf rooted (k, ns ++ [e])).1
            = path.push rooted (path.render rooted (List.replicate k ['.', '.'] ++ ns)) e := by
          simp only [path.stateOf]
          rw [← List.append_assoc, render_snoc]
        have hdd : (path.stateOf rooted (k, ns ++ [e])).2
            = (path.render rooted (List.replicate k ['.', '.'])).length := rfl
        have hle := length_render_le rooted (List.replicate k ['.', '.']) ns
        have hge := length_push_ge rooted
          (path.render rooted (List.replicate k ['.', '.'] ++ ns)) e
        have hpos : 0 < e.length := List.length_pos.mpr hee.1
        have hgt : (path.stateOf rooted (k, ns ++ [e])).1.length
            > (path.stateOf rooted (k, ns ++ [e])).2 := by
          rw [hout, hdd]; omega
        rw [if_pos hgt, if_pos hnn]
        have hback : path.backtrack (path.stateOf rooted (k, ns ++ [e])).1
            (path.stateOf rooted (k, ns ++ [e])).2
            = path.render rooted (List.replicate k ['.', '.'] ++ ns) := by
          rw [hout, hdd, push_eq rooted _ e hne2]
          by_cases hem : List.replicate k ['.', '.'] ++ ns = []
          · rw [if_pos hem]
            have hk : List.replicate k ['.', '.'] = [] := (List.append_eq_nil.mp hem).1
            rw [hem, hk]
            exact backtrack_stop _ e hee.2.1 hee.1
          · rw [if_neg hem]
            exact backtrack_sep _ e _ hee.2.1 hle
        rw [hback]
        simp [path.stateOf, List.dropLast_concat]
    · rw [if_neg hd, if_neg hd]
      simp only [path.stateOf]
      rw [← List.append_assoc, render_snoc]
      rfl

theorem foldl_stateOf (rooted : Bool) (segs : List Str) (hsegs : ∀ s ∈ segs, '/' ∉ s)
    (a : Nat × List Str) (h : path.Kept rooted a) :
    segs.foldl (path.segStep rooted) (path.stateOf rooted a)
      = path.stateOf rooted (segs.foldl (path.normStep rooted) a) ∧
    path.Kept rooted (segs.foldl (path.normStep rooted) a) := by
  induction segs generalizing a with
  | nil => exact ⟨rfl, h⟩
  | cons s ss ih =>
    have hs : '/' ∉ s := hsegs s (by simp)
    have hss : ∀ x ∈ ss, '/' ∉ x := fun x hx => hsegs x (by simp [hx])
    simp only [List.foldl_cons]
    rw [segStep_stateOf rooted a s h]
    exact ih hss _ (normStep_kept rooted a s hs h)

theorem segments_mem_noslash (p : Str) : ∀ s ∈ path.segments p, '/' ∉ s := by
  induction p with
  | nil => simp [path.segments]
  | cons c cs ih =>
    by_cases hc : c = '/'
    · simp only [path.segments, hc, if_true]
      intro s hs
      rcases List.mem_cons.mp hs with h | h
      · simp [h]
      · exact ih s h
    · obtain ⟨x, xs, hx⟩ := List.exists_cons_of_ne_nil (segments_ne_nil cs)
      simp only [path.segments, hc, if_false, hx, List.headD_cons, List.tail_cons]
      intro s hs
      rcases List.mem_cons.mp hs with h | h
      · rw [h]
        intro hm
        rcases List.mem_cons.mp hm with h1 | h1
        · exact hc h1.symm
        · exact ih x (by simp [hx]) h1
      · exact ih s (by simp [hx, h])

theorem kept_kept (p : Str) : path.Kept (path.isRooted p) (path.kept p) :=
  (foldl_stateOf (path.isRooted p) _ (segments_mem_noslash _) (0, [])
    ⟨by simp, fun _ => rfl⟩).2

/-- The result of `path.Clean` on a non-empty path, from the elements it keeps. -/
theorem clean_eq_render (p : Str) (hp : p ≠ []) :
    path.Clean p =
      if (path.render (path.isRooted p)
          (List.replicate (path.kept p).1 ['.', '.'] ++ (path.kept p).2)).length = 0
      then ['.']
      else path.render (path.isRooted p)
          (List.replicate (path.kept p).1 ['.', '.'] ++ (path.kept p).2) := by
  have key : ∀ (rooted : Bool) (q : Str) (n : Nat), q.length ≤ n →
      path.cleanLoop rooted n q (path.stateOf rooted (0, [])).1 (path.stateOf rooted (0, [])).2
        = (path.stateOf rooted ((path.segments q).foldl (path.normStep rooted) (0, []))).1 := by
    intro rooted q n hn
    rw [cleanLoop_segments rooted n q _ _ hn]
    have := (foldl_stateOf rooted (path.segments q) (segments_mem_noslash q) (0, [])
      ⟨by simp, fun _ => rfl⟩).1
    rw [← this]
  unfold path.Clean
  rw [if_neg hp]
  by_cases hr : p.head? = some '/'
  · have hroot : path.isRooted p = true := by simp [path.isRooted, hr]
    have hk := key true p.tail p.length (by simp)
    simp only [path.stateOf, path.render, List.replicate, List.nil_append, List.foldl_nil,
      if_true, List.length_singleton] at hk
    simp only [hr, decide_True, if_true, hk, path.kept, hroot, path.stateOf]
    rfl
  · have hroot : path.isRooted p = false := by simp [path.isRooted, hr]
    have hk := key false p p.length (le_refl _)
    simp only [path.stateOf, path.render, List.replicate, List.nil_append, List.foldl_nil,
      Bool.false_eq_true, if_false, List.length_nil] at hk
    simp only [hr, decide_False, Bool.false_eq_true, if_false, hk, path.kept, hroot,
      path.stateOf]
    rfl

/-! ### Cleaning a cleaned path -/

theorem render_false_cons (x : Str) (xs : List Str) (hx : x ≠ [])
    (hxs : ∀ e ∈ xs, e ≠ []) :
    ∃ t, path.render false (x :: xs) = x ++ t ∧ (t = [] ∨ t.head? = some '/') := by
  induction xs using List.reverseRecOn with
  | nil => exact ⟨[], by simp [path.render, path.push, path.withSep], Or.inl rfl⟩
  | append_singleton b e ih =>
    obtain ⟨t, ht, htt⟩ := ih (fun y hy => hxs y (by simp [hy]))
    have hne : ∀ y ∈ x :: b, y ≠ [] := by
      intro y hy
      rcases List.mem_cons.mp hy with h | h
      · rw [h]; exact hx
      · exact hxs y (by simp [h])
    have hnil : x :: b ≠ [] := by simp
    rw [← List.cons_append, render_snoc, push_eq false (x :: b) e hne, if_neg hnil, ht]
    refine ⟨t ++ '/' :: e, by simp, Or.inr ?_⟩
    rcases htt with h | h
    · simp [h]
    · cases t with
      | nil => simp at h
      | cons c cs => simpa using h

theorem segments_render (els : List Str) (hels : els ≠ [])
    (hne : ∀ e ∈ els, e ≠ [] ∧ '/' ∉ e) :
    path.segments (path.render false els) = els := by
  induction els using List.reverseRecOn with
  | nil => exact absurd rfl hels
  | append_singleton b e ih =>
    have he := hne e (by simp)
    have hb : ∀ y ∈ b, y ≠ [] ∧ '/' ∉ y := fun y hy => hne y (by simp [hy])
    rw [render_snoc, push_eq false b e (fun y hy => (hb y hy).1)]
    by_cases hbn : b = []
    · subst hbn
      simp [path.render, segments_noslash e he.2]
    · rw [if_neg hbn, segments_append_slash, ih hbn hb, segments_noslash e he.2]

theorem render_false_unrooted (x : Str) (xs : List Str) (hx : x ≠ [] ∧ '/' ∉ x)
    (hxs : ∀ e ∈ xs, e ≠ []) (t : Str) :
    path.isRooted (path.render false (x :: xs) ++ t) = false := by
  obtain ⟨u, hu, _⟩ := render_false_cons x xs hx.1 hxs
  obtain ⟨c, cs, hc⟩ := List.exists_cons_of_ne_nil hx.1
  have hcs : c ≠ '/' := by
    intro h
    exact hx.2 (by simp [hc, h])
  rw [hu, hc]
  simp [path.isRooted, hcs]

theorem foldl_normStep_dots (k j : Nat) :
    (List.replicate k ['.', '.']).foldl (path.normStep false) (j, []) = (j + k, []) := by
  induction k generalizing j with
  | zero => rfl
  | succ k ih =>
    rw [List.replicate_succ, List.foldl_cons]
    have : path.normStep false (j, []) ['.', '.'] = (j + 1, []) := by
      simp [path.normStep]
    rw [this, ih]
    congr 1
    omega

theorem foldl_normStep_names (rooted : Bool) (names : List Str)
    (h : ∀ e ∈ names, path.IsName e) (k : Nat) (ms : List Str) :
    names.foldl (path.normStep rooted) (k, ms) = (k, ms ++ names) := by
  induction names generalizing ms with
  | nil => simp
  | cons e es ih =>
    have he := h e (by simp)
    have a1 : ¬ (e = [] ∨ e = ['.']) := by
      intro hh; rcases hh with hh | hh
      · exact he.1 hh
      · exact he.2.2.1 hh
    have : path.normStep rooted (k, ms) e = (k, ms ++ [e]) := by
      rw [path.normStep, if_neg a1, if_neg he.2.2.2]
    rw [List.foldl_cons, this, ih (fun x hx => h x (by simp [hx]))]
    simp

theorem kept_elems (a : Nat × List Str) (h : path.Kept false a) :
    ∀ e ∈ List.replicate a.1 ['.', '.'] ++ a.2, e ≠ [] ∧ '/' ∉ e := by
  intro x hx
  rcases List.mem_append.mp hx with h1 | h1
  · rw [(List.mem_replicate.mp h1).2]; simp
  · exact ⟨(h.1 x h1).1, (h.1 x h1).2.1⟩

/-- Appending `/e`, for an ordinary element `e`, to an unrooted cleaned path
gives a path that `path.Clean` leaves as it is. -/
theorem clean_render_snoc (a : Nat × List Str) (h : path.Kept false a)
    (hne : List.replicate a.1 ['.', '.'] ++ a.2 ≠ []) (e : Str) (he : path.IsName e) :
    path.Clean (path.render false (List.replicate a.1 ['.', '.'] ++ a.2) ++ '/' :: e)
      = path.render false (List.replicate a.1 ['.', '.'] ++ a.2) ++ '/' :: e := by
  obtain ⟨k, names⟩ := a
  have hel := kept_elems (k, names) h
  simp only at hel hne
  have hp : path.render false (List.replicate k ['.', '.'] ++ names) ++ '/' :: e ≠ [] := by simp
  have hroot : path.isRooted
      (path.render false (List.replicate k ['.', '.'] ++ names) ++ '/' :: e) = false := by
    obtain ⟨x, xs, hx⟩ := List.exists_cons_of_ne_nil hne
    rw [hx] at hel ⊢
    exact render_false_unrooted x xs (hel x (by simp))
      (fun y hy => (hel y (by simp [hy])).1) _
  have hkept : path.kept
      (path.render false (List.replicate k ['.', '.'] ++ names) ++ '/' :: e)
      = (k, names ++ [e]) := by
    unfold path.kept
    rw [hroot]
    simp only [Bool.false_eq_true, if_false]
    rw [segments_append_slash, segments_render _ hne hel, segments_noslash e he.2.1,
      List.foldl_append, List.foldl_append, foldl_normStep_dots,
      foldl_normStep_names false names h.1, List.foldl_cons, List.foldl_nil]
    have a1 : ¬ (e = [] ∨ e = ['.']) := by
      intro hh; rcases hh with hh | hh
      · exact he.1 hh
      · exact he.2.2.1 hh
    rw [path.normStep, if_neg a1, if_neg he.2.2.2]
    simp
  rw [clean_eq_render _ hp, hkept, hroot]
  simp only
  rw [← List.append_assoc, render_snoc,
    push_eq false _ e (fun y hy => (hel y hy).1), if_neg hne]
  simp

/-! ### `path.Join`, `filepath.Split` and the suffix tests -/

theorem isName_index : path.IsName "index.html".toList := by
  unfold path.IsName; decide

theorem join_two (a b : Str) (hb : b ≠ []) :
    path.Join [a, b] = path.Clean (if a = [] then b else a ++ '/' :: b) := by
  have hlen : 0 < b.length := List.length_pos.mpr hb
  have hsum : ¬ (([a, b].map List.length).sum = 0) := by
    simp only [List.map_cons, List.map_nil, List.sum_cons, List.sum_nil]; omega
  unfold path.Join
  rw [if_neg hsum]
  by_cases ha : a = []
  · subst ha
    simp [path.joinBuf, hb]
  · have hla : 0 < a.length := List.length_pos.mpr ha
    simp [path.joinBuf, ha, hla]

theorem join_host_path (h p : Str) :
    path.Join [h, p] = [] ∨ ∃ x, x ≠ [] ∧ path.Join [h, p] = path.Clean x := by
  by_cases hh : h = []
  · by_cases hp : p = []
    · left; subst hh hp; rfl
    · right
      refine ⟨p, hp, ?_⟩
      rw [join_two h p hp, if_pos hh]
  · right
    refine ⟨h ++ '/' :: p, by simp, ?_⟩
    have hla : 0 < h.length := List.length_pos.mpr hh
    have hsum : ¬ (([h, p].map List.length).sum = 0) := by
      simp only [List.map_cons, List.map_nil, List.sum_cons, List.sum_nil]; omega
    unfold path.Join
    rw [if_neg hsum]
    simp [path.joinBuf, hh, hla]

theorem hasSuffix_append (pre s : Str) : strings.HasSuffix (pre ++ s) s = true := by
  unfold strings.HasSuffix
  rw [List.reverse_append, List.isPrefixOf_iff_prefix]
  exact List.prefix_append _ _

theorem hasPrefix_append (s t : Str) : strings.HasPrefix (s ++ t) s = true := by
  unfold strings.HasPrefix
  rw [List.isPrefixOf_iff_prefix]
  exact List.prefix_append _ _

theorem hasPrefix_iff (d pre : Str) : strings.HasPrefix d pre = true ↔ ∃ t, d = pre ++ t := by
  unfold strings.HasPrefix
  rw [List.isPrefixOf_iff_prefix]
  constructor
  · rintro ⟨t, ht⟩
    exact ⟨t, ht.symm⟩
  · rintro ⟨t, ht⟩
    exact ⟨t, ht.symm⟩

theorem takeWhile_noslash (l r : Str) (h : '/' ∉ l) :
    (l ++ '/' :: r).takeWhile (· != '/') = l := by
  induction l with
  | nil => simp
  | cons c cs ih =>
    have hc : c ≠ '/' := fun e => h (by simp [e])
    have hcs : '/' ∉ cs := fun e => h (by simp [e])
    have h2 : (c != '/') = true := by simpa using hc
    rw [List.cons_append, List.takeWhile_cons, if_pos h2, ih hcs]

theorem split_last (pre e : Str) (h : '/' ∉ e) : (filepath.Split (pre ++ '/' :: e)).2 = e := by
  have hr : '/' ∉ e.reverse := by simpa using h
  simp only [filepath.Split, List.reverse_append, List.reverse_cons, List.append_assoc,
    List.singleton_append]
  rw [takeWhile_noslash _ _ hr, List.reverse_reverse]

/-! ### The `index.html` step -/

theorem clean_rooted_head (p : Str) (hr : path.isRooted p = true) :
    (path.Clean p).head? = some '/' := by
  have hp : p ≠ [] := by
    intro h; subst h; simp [path.isRooted] at hr
  rw [clean_eq_render p hp, hr]
  have hh := render_true_head (List.replicate (path.kept p).1 ['.', '.'] ++ (path.kept p).2)
  cases hc : path.render true (List.replicate (path.kept p).1 ['.', '.'] ++ (path.kept p).2) with
  | nil => rw [hc] at hh; simp at hh
  | cons c cs => rw [hc] at hh; simpa using hh

/-- Joining a cleaned path other than `.` with an ordinary element `e`
gives a path that ends with `/e`. -/
theorem join_clean_name (x e : Str) (hx : x ≠ []) (he : path.IsName e)
    (hdot : path.Clean x ≠ ['.']) :
    ∃ pre, path.Join [path.Clean x, e] = pre ++ '/' :: e := by
  have hcx := clean_eq_render x hx
  by_cases hlen : (path.render (path.isRooted x)
      (List.replicate (path.kept x).1 ['.', '.'] ++ (path.kept x).2)).length = 0
  · rw [if_pos hlen] at hcx
    exact absurd hcx hdot
  · rw [if_neg hlen] at hcx
    have hne : path.Clean x ≠ [] := by
      rw [hcx]; intro h; exact hlen (by simp [h])
    rw [join_two _ e he.1, if_neg hne]
    cases hr : path.isRooted x with
    | true =>
      have hh := clean_rooted_head x hr
      have hroot2 : path.isRooted (path.Clean x ++ '/' :: e) = true := by
        cases hc : path.Clean x with
        | nil => exact absurd hc hne
        | cons c cs =>
          rw [hc] at hh
          simp only [List.head?_cons, Option.some.injEq] at hh
          simp [path.isRooted, hh]
      have h2 := clean_rooted_head _ hroot2
      rcases clean_last_name (path.Clean x) e he with h3 | h3
      · exfalso
        rw [h3] at h2
        obtain ⟨c, cs, hc⟩ := List.exists_cons_of_ne_nil he.1
        rw [hc] at h2
        simp only [List.head?_cons, Option.some.injEq] at h2
        exact he.2.1 (by simp [hc, h2])
      · exact h3
    | false =>
      rw [hr] at hcx hlen
      have hk := kept_kept x
      rw [hr] at hk
      have hels : List.replicate (path.kept x).1 ['.', '.'] ++ (path.kept x).2 ≠ [] := by
        intro h
        rw [h] at hlen
        exact hlen (by simp [path.render])
      refine ⟨path.Clean x, ?_⟩
      rw [hcx]
      exact clean_render_snoc (path.kept x) hk hels e he

theorem join_degenerate (fp : Str) (h : fp = [] ∨ fp = ['.']) :
    path.Join [fp, "index.html".toList] = "index.html".toList := by
  rcases h with h | h <;> subst h <;> decide

/-- The path derived in batch mode for a URL whose text ends with `/`. -/
theorem derivePath_index_batch (url : URL) (hs : strings.HasSuffix url.String ['/'] = true) :
    if path.Join [url.Host, url.Path] = [] ∨ path.Join [url.Host, url.Path] = ['.'] then
      derivePath url false = "index.html".toList
    else ∃ pre, derivePath url false = pre ++ "/index.html".toList := by
  have hd : derivePath url false
      = path.Join [path.Join [url.Host, url.Path], "index.html".toList] := by
    simp [derivePath, hs]
  rw [hd]
  split
  · rename_i h
    exact join_degenerate _ h
  · rename_i h
    simp only [not_or] at h
    rcases join_host_path url.Host url.Path with h1 | ⟨x, hx, h1⟩
    · exact absurd h1 h.1
    · rw [h1] at h ⊢
      exact join_clean_name x _ hx isName_index h.2

theorem derivePath_index_single (url : URL) (hs : strings.HasSuffix url.String ['/'] = true) :
    derivePath url true = "index.html".toList := by
  have hd : derivePath url true
      = (filepath.Split (derivePath url false)).2 := by
    simp [derivePath]
  have hb := derivePath_index_batch url hs
  rw [hd]
  split at hb
  · rw [hb]; decide
  · obtain ⟨pre, hpre⟩ := hb
    rw [hpre]
    exact split_last pre _ (by decide)

/-! ### Paths that stay under the host -/

theorem starts_with_host (h t : Str) (ht : t = [] ∨ t.head? = some '/') :
    h ++ t = h ∨ strings.HasPrefix (h ++ t) (h ++ ['/']) = true := by
  rcases ht with ht | ht
  · left; simp [ht]
  · right
    cases t with
    | nil => simp at ht
    | cons c cs =>
      simp only [List.head?_cons, Option.some.injEq] at ht
      subst ht
      have : h ++ '/' :: cs = (h ++ ['/']) ++ cs := by simp
      rw [this]
      exact hasPrefix_append _ _

/-- Reading a URL path whose `..` elements never climb above the host
directory keeps the host as the first kept element. -/
theorem foldl_normStep_no_climb (host : Str) (segs : List Str) :
    ∀ names : List Str, path.climbs names.length segs = false →
      ∃ extra, segs.foldl (path.normStep false) (0, host :: names) = (0, host :: extra) := by
  induction segs with
  | nil => intro names _; exact ⟨names, rfl⟩
  | cons s ss ih =>
    intro names h
    unfold path.climbs at h
    rw [List.foldl_cons]
    by_cases h1 : s = [] ∨ s = ['.']
    · rw [if_pos h1] at h
      have : path.normStep false (0, host :: names) s = (0, host :: names) := by
        rw [path.normStep, if_pos h1]
      rw [this]
      exact ih names h
    · rw [if_neg h1] at h
      by_cases h2 : s = ['.', '.']
      · rw [if_pos h2] at h
        rcases List.eq_nil_or_concat names with hn | ⟨ns, e, hn⟩
        · subst hn
          simp at h
        · rw [List.concat_eq_append] at hn
          subst hn
          have hlen : (ns ++ [e]).length = ns.length + 1 := by simp
          rw [hlen] at h
          have hne : host :: (ns ++ [e]) ≠ [] := by simp
          have hdrop : (host :: (ns ++ [e])).dropLast = host :: ns := by
            have : host :: (ns ++ [e]) = (host :: ns) ++ [e] := rfl
            rw [this, List.dropLast_concat]
          have : path.normStep false (0, host :: (ns ++ [e])) s = (0, host :: ns) := by
            rw [path.normStep, if_neg h1, if_pos h2]
            simp only [ne_eq, hne, not_false_eq_true, if_true, hdrop]
          rw [this]
          exact ih ns h
      · rw [if_neg h2] at h
        have : path.normStep false (0, host :: names) s = (0, host :: (names ++ [s])) := by
          rw [path.normStep, if_neg h1, if_neg h2]
          rfl
        rw [this]
        have hlen : (names ++ [s]).length = names.length + 1 := by simp
        exact ih (names ++ [s]) (by rw [hlen]; exact h)

theorem isRooted_of_name (host t : Str) (hhost : path.IsName host) :
    path.isRooted (host ++ t) = false := by
  obtain ⟨c, cs, hc⟩ := List.exists_cons_of_ne_nil hhost.1
  have hcs : c ≠ '/' := by
    intro hh
    exact hhost.2.1 (by simp [hc, hh])
  rw [hc]
  simp [path.isRooted, hcs]

/-- For an ordinary host, a URL path whose `..` elements never climb above
the host directory (so `/a/../b`, and every path without `..`) is cleaned,
after the host, to a path whose first element is the host. -/
theorem kept_host_of_no_climb (host p : Str) (hhost : path.IsName host)
    (h : path.climbs 0 (path.segments p) = false) :
    ∃ extra, path.kept (host ++ '/' :: p) = (0, host :: extra) := by
  have hroot := isRooted_of_name host ('/' :: p) hhost
  unfold path.kept
  rw [hroot]
  simp only [Bool.false_eq_true, if_false]
  rw [segments_append_slash, segments_noslash _ hhost.2.1, List.singleton_append,
    List.foldl_cons]
  have a1 : ¬ (host = [] ∨ host = ['.']) := by
    intro hh; rcases hh with hh | hh
    · exact hhost.1 hh
    · exact hhost.2.2.1 hh
  have : path.normStep false (0, []) host = (0, [host]) := by
    rw [path.normStep, if_neg a1, if_neg hhost.2.2.2]; rfl
  rw [this]
  exact foldl_normStep_no_climb host (path.segments p) [] h

/-- The host of a URL whose cleaning keeps the host as an element is an
ordinary element. -/
theorem host_isName_of_kept (url : URL) (extra : List Str)
    (hkept : path.kept (url.Host ++ '/' :: url.Path) = (0, url.Host :: extra)) :
    path.IsName url.Host := by
  have hk := kept_kept (url.Host ++ '/' :: url.Path)
  rw [hkept] at hk
  exact hk.1 url.Host (by simp)

/-- The path derived in batch mode is the host or lies under it when the
cleaning of host and path keeps the host as the first element. -/
theorem derivePath_host_or_under (url : URL) (extra : List Str)
    (hkept : path.kept (url.Host ++ '/' :: url.Path) = (0, url.Host :: extra)) :
    derivePath url false = url.Host ∨
      strings.HasPrefix (derivePath url false) (url.Host ++ ['/']) = true := by
  have hhost := host_isName_of_kept url extra hkept
  have hx : url.Host ++ '/' :: url.Path ≠ [] := by simp
  have hjoin : path.Join [url.Host, url.Path] = path.Clean (url.Host ++ '/' :: url.Path) := by
    have hla : 0 < url.Host.length := List.length_pos.mpr hhost.1
    have hsum : ¬ (([url.Host, url.Path].map List.length).sum = 0) := by
      simp only [List.map_cons, List.map_nil, List.sum_cons, List.sum_nil]; omega
    unfold path.Join
    rw [if_neg hsum]
    simp [path.joinBuf, hhost.1, hla]
  have hroot := isRooted_of_name url.Host ('/' :: url.Path) hhost
  have hk := kept_kept (url.Host ++ '/' :: url.Path)
  rw [hroot] at hk
  have hnames : ∀ e ∈ url.Host :: extra, path.IsName e := by
    have := hk.1
    rw [hkept] at this
    exact this
  obtain ⟨t, ht, htt⟩ := render_false_cons url.Host extra hhost.1
    (fun e he => (hnames e (by simp [he])).1)
  have hclean : path.Clean (url.Host ++ '/' :: url.Path) = url.Host ++ t := by
    rw [clean_eq_render _ hx, hroot, hkept]
    simp only [List.replicate, List.nil_append]
    rw [ht]
    have : (url.Host ++ t).length ≠ 0 := by
      have hla : 0 < url.Host.length := List.length_pos.mpr hhost.1
      simp only [List.length_append]; omega
    rw [if_neg this]
  by_cases hs : strings.HasSuffix url.String ['/'] = true
  · have hd : derivePath url false
        = path.Join [path.Join [url.Host, url.Path], "index.html".toList] := by
      simp [derivePath, hs]
    have hne : path.Clean (url.Host ++ '/' :: url.Path) ≠ [] := by
      rw [hclean]; simp [hhost.1]
    have hsnoc := clean_render_snoc (path.kept (url.Host ++ '/' :: url.Path)) hk
      (by rw [hkept]; simp) "index.html".toList isName_index
    rw [hkept] at hsnoc
    simp only [List.replicate, List.nil_append] at hsnoc
    rw [ht] at hsnoc
    rw [hd, hjoin, join_two _ _ (by decide), if_neg hne, hclean, hsnoc, List.append_assoc]
    apply starts_with_host
    right
    rcases htt with h1 | h1
    · simp [h1]
    · cases t with
      | nil => simp at h1
      | cons c cs => simpa using h1
  · have hd : derivePath url false = path.Join [url.Host, url.Path] := by
      simp [derivePath, hs]
    rw [hd, hjoin, hclean]
    exact starts_with_host _ _ htt

theorem head_segments_of_under (d host : Str) (hslash : '/' ∉ host)
    (h : d = host ∨ strings.HasPrefix d (host ++ ['/']) = true) :
    (path.segments d).head? = some host := by
  rcases h with h | h
  · rw [h, segments_noslash host hslash]
    rfl
  · obtain ⟨t, ht⟩ := (hasPrefix_iff _ _).mp h
    have : d = host ++ '/' :: t := by rw [ht]; simp
    rw [this, segments_append_slash, segments_noslash host hslash]
    rfl

/-- The amended claim C9 is exact for an ordinary host: when the path derived
in batch mode is the host or starts with the host followed by `/`, the
cleaning of host and path keeps the host as the first element, but for the
one case where everything is cleaned away and the appended `index.html` is
the host's own name. -/
theorem derivePath_under_host_only_if (url : URL) (hhost : path.IsName url.Host)
    (hC : derivePath url false = url.Host ∨
      strings.HasPrefix (derivePath url false) (url.Host ++ ['/']) = true) :
    (∃ extra, path.kept (url.Host ++ '/' :: url.Path) = (0, url.Host :: extra)) ∨
      (url.Host = "index.html".toList ∧ derivePath url false = "index.html".toList) := by
  have hhead := head_segments_of_under _ _ hhost.2.1 hC
  have hx : url.Host ++ '/' :: url.Path ≠ [] := by simp
  have hjoin : path.Join [url.Host, url.Path] = path.Clean (url.Host ++ '/' :: url.Path) := by
    have hla : 0 < url.Host.length := List.length_pos.mpr hhost.1
    have hsum : ¬ (([url.Host, url.Path].map List.length).sum = 0) := by
      simp only [List.map_cons, List.map_nil, List.sum_cons, List.sum_nil]; omega
    unfold path.Join
    rw [if_neg hsum]
    simp [path.joinBuf, hhost.1, hla]
  have hroot := isRooted_of_name url.Host ('/' :: url.Path) hhost
  have hk := kept_kept (url.Host ++ '/' :: url.Path)
  rw [hroot] at hk
  have hel := kept_elems _ hk
  have hclean := clean_eq_render _ hx
  rw [hroot] at hclean
  generalize hkv : path.kept (url.Host ++ '/' :: url.Path) = a at hk hel hclean ⊢
  obtain ⟨k, names⟩ := a
  simp only at hel hclean
  by_cases hels : List.replicate k ['.', '.'] ++ names = []
  · -- everything is cleaned away: the join is `.`
    rw [hels] at hclean
    simp only [path.render, Bool.false_eq_true, if_false, List.foldl_nil, List.length_nil,
      if_true] at hclean
    by_cases hs : strings.HasSuffix url.String ['/'] = true
    · have hd : derivePath url false = "index.html".toList := by
        have : derivePath url false
            = path.Join [path.Join [url.Host, url.Path], "index.html".toList] := by
          simp [derivePath, hs]
        rw [this, hjoin, hclean]
        decide
      right
      rw [hd] at hhead
      have : url.Host = "index.html".toList := by
        have h2 : (path.segments "index.html".toList).head? = some "index.html".toList := by
          decide
        rw [h2] at hhead
        exact (Option.some.inj hhead).symm
      exact ⟨this, hd⟩
    · exfalso
      have hd : derivePath url false = ['.'] := by
        have : derivePath url false = path.Join [url.Host, url.Path] := by
          simp [derivePath, hs]
        rw [this, hjoin, hclean]
      rw [hd] at hhead
      have h2 : (path.segments ['.']).head? = some ['.'] := by decide
      rw [h2] at hhead
      exact hhost.2.2.1 (Option.some.inj hhead).symm
  · -- the join is the rendered list of kept elements
    have hlen : (path.render false (List.replicate k ['.', '.'] ++ names)).length ≠ 0 := by
      intro h
      exact hels (render_small false _ (fun e he => (hel e he).1) (by simpa using h))
    rw [if_neg hlen] at hclean
    have hseg := segments_render _ hels hel
    have hheadEls : (List.replicate k ['.', '.'] ++ names).head? = some url.Host := by
      by_cases hs : strings.HasSuffix url.String ['/'] = true
      · have hd : derivePath url false
            = path.render false (List.replicate k ['.', '.'] ++ names)
              ++ '/' :: "index.html".toList := by
          have h1 : derivePath url false
              = path.Join [path.Join [url.Host, url.Path], "index.html".toList] := by
            simp [derivePath, hs]
          have hne : path.render false (List.replicate k ['.', '.'] ++ names) ≠ [] := by
            intro h; exact hlen (by simp [h])
          rw [h1, hjoin, hclean, join_two _ _ (by decide), if_neg hne]
          exact clean_render_snoc (k, names) hk hels _ isName_index
        rw [hd, segments_append_slash, hseg] at hhead
        obtain ⟨x, xs, hxs⟩ := List.exists_cons_of_ne_nil hels
        rw [hxs] at hhead ⊢
        simpa using hhead
      · have hd : derivePath url false
            = path.render false (List.replicate k ['.', '.'] ++ names) := by
          have : derivePath url false = path.Join [url.Host, url.Path] := by
            simp [derivePath, hs]
          rw [this, hjoin, hclean]
        rw [hd, hseg] at hhead
        exact hhead
    left
    cases k with
    | zero =>
      simp only [List.replicate, List.nil_append] at hheadEls
      cases names with
      | nil => simp at hheadEls
      | cons n ns =>
        simp only [List.head?_cons, Option.some.injEq] at hheadEls
        exact ⟨ns, by rw [hheadEls]⟩
    | succ k =>
      exfalso
      simp only [List.replicate_succ, List.cons_append, List.head?_cons,
        Option.some.injEq] at hheadEls
      exact hhost.2.2.2 hheadEls.symm

/-! ### `download`: the calls it makes -/

theorem download_calls (env : Env) (u : Str) (justone : Bool) (w : World) :
    (download env u justone w).2.calls = w.calls ++
      (match resolveDest env u justone w.fs with
        | Resolution.dest d =>
          Call.hpoolGet (env.parseURL u).String ::
            (match env.hpool w.calls (env.parseURL u).String with
              | Except.ok _ => [Call.mkdirAll (filepath.Split d).1, Call.openFile d]
              | Except.error _ => [])
        | _ => []) := by
  unfold download
  cases hres : resolveDest env u justone w.fs with
  | skip => simp
  | fail e => simp
  | dest d =>
    simp only
    cases hget : env.hpool w.calls (env.parseURL u).String with
    | error e => simp
    | ok resp =>
      simp only
      cases hopen : os.OpenFile (os.MkdirAll w.fs (filepath.Split d).1) d with
      | error e => simp
      | ok fs3 => simp

/-- With no `-o` and gzip off, the resolved destination has no entry,
unless the derived path is a regular file, no-clobber is off and every
suffixed path below the bound is taken. -/
theorem resolveDest_free (env : Env) (u : Str) (justone : Bool) (fs : FS) (d : Str)
    (ho : env.flagOutfile = []) (hg : env.flagGzip = false)
    (hroom : ∀ c, os.Stat fs (derivePath (env.parseURL u) justone) = some (Entry.file c) →
      env.flagNoClobber = false →
      ∃ N, 1 ≤ N ∧ N < 1000000 ∧
        os.Stat fs (fmt.SprintfSD (derivePath (env.parseURL u) justone) N) = none)
    (hres : resolveDest env u justone fs = Resolution.dest d) :
    os.Stat fs d = none := by
  unfold resolveDest resolveCollision at hres
  rw [ho, hg] at hres
  simp only [ne_eq, not_true_eq_false, if_false, Bool.false_eq_true] at hres
  cases hst : os.Stat fs (derivePath (env.parseURL u) justone) with
  | none =>
    rw [hst] at hres
    simp only [Resolution.dest.injEq] at hres
    rw [← hres]; exact hst
  | some st =>
    rw [hst] at hres
    simp only at hres
    by_cases hnc : env.flagNoClobber = true
    · simp [hnc] at hres
    · cases st with
      | dir => simp [hnc] at hres
      | file c =>
        have hnc2 : env.flagNoClobber = false := by simpa using hnc
        simp only [hnc2, if_false, Bool.false_eq_true, Resolution.dest.injEq] at hres
        obtain ⟨N, h1, h2, h3⟩ := hroom c hst hnc2
        obtain ⟨k, _, _, hk, hfree, _⟩ :=
          suffixLoop_least fs _ 999999 1 N h1 (by omega) h3
        have hd : d = suffixLoop fs (derivePath (env.parseURL u) justone) 999999 1 := by
          simpa using hres.symm
        rw [hd, hk]
        exact hfree

theorem suffixLoop_appends (fs : FS) (p : Str) :
    ∀ (n a : Nat), ∃ s, suffixLoop fs p n a = p ++ s := by
  intro n
  induction n with
  | zero => intro a; exact ⟨[], by simp [suffixLoop]⟩
  | succ n ih =>
    intro a
    rw [suffixLoop]
    split
    · exact ⟨'.' :: Nat.toDigits 10 a, rfl⟩
    · exact ih (a + 1)

/-- Without `-o`, the resolved destination is the derived path with a
suffix (a collision number, `.gz`, both or none) appended. -/
theorem resolveDest_appends (env : Env) (u : Str) (justone : Bool) (fs : FS) (d : Str)
    (ho : env.flagOutfile = [])
    (hres : resolveDest env u justone fs = Resolution.dest d) :
    ∃ s, d = derivePath (env.parseURL u) justone ++ s := by
  have hcol : ∀ d1, resolveCollision env.flagOutfile env.flagNoClobber fs
      (derivePath (env.parseURL u) justone) = Resolution.dest d1 →
      ∃ s, d1 = derivePath (env.parseURL u) justone ++ s := by
    intro d1 h
    unfold resolveCollision at h
    rw [ho] at h
    simp only [ne_eq, not_true_eq_false, if_false] at h
    cases hst : os.Stat fs (derivePath (env.parseURL u) justone) with
    | none =>
      rw [hst] at h
      simp only [Resolution.dest.injEq] at h
      exact ⟨[], by rw [← h]; simp⟩
    | some st =>
      rw [hst] at h
      simp only at h
      split at h
      · simp at h
      · split at h
        · simp at h
        · simp only [Resolution.dest.injEq] at h
          obtain ⟨s, hs⟩ := suffixLoop_appends fs (derivePath (env.parseURL u) justone) 999999 1
          exact ⟨s, by rw [← h, hs]⟩
  unfold resolveDest at hres
  cases hc : resolveCollision env.flagOutfile env.flagNoClobber fs
      (derivePath (env.parseURL u) justone) with
  | skip => rw [hc] at hres; simp at hres
  | fail e => rw [hc] at hres; simp at hres
  | dest d1 =>
    rw [hc] at hres
    simp only [Resolution.dest.injEq] at hres
    obtain ⟨s, hs⟩ := hcol d1 hc
    by_cases hg : env.flagGzip = true
    · rw [if_pos hg] at hres
      exact ⟨s ++ ".gz".toList, by rw [← hres, hs]; simp⟩
    · rw [if_neg hg] at hres
      exact ⟨s, by rw [← hres, hs]⟩

/-! ### Supporting facts on `download` and `run` -/

theorem openFile_ok (fs fs3 : FS) (p : Str) (h : os.OpenFile fs p = Except.ok fs3) :
    ∃ c, fs3 p = some (Entry.file c) := by
  unfold os.OpenFile at h
  cases hp : fs p with
  | none =>
    rw [hp] at h
    simp only at h
    split at h
    · simp only [Except.ok.injEq] at h
      exact ⟨[], by rw [← h]; simp [FS.set]⟩
    · simp at h
  | some e =>
    rw [hp] at h
    cases e with
    | dir => simp at h
    | file c =>
      simp only [Except.ok.injEq] at h
      exact ⟨c, by rw [← h]; exact hp⟩

theorem write_exists (fs : FS) (p : Str) (c data : Bytes) (h : fs p = some (Entry.file c)) :
    (os.Write fs p data) p = some (Entry.file (os.writeAt0 c data)) := by
  simp [os.Write, h, FS.set]

theorem download_of_skip (env : Env) (u : Str) (justone : Bool) (w : World)
    (h : resolveDest env u justone w.fs = Resolution.skip) :
    download env u justone w = (none, w) := by
  unfold download
  rw [h]

/-- After a `download` that returned nil, the resolved destination is a
regular file. -/
theorem download_ok_exists (env : Env) (u : Str) (justone : Bool) (w : World) (d : Str)
    (hres : resolveDest env u justone w.fs = Resolution.dest d)
    (hok : (download env u justone w).1 = none) :
    ∃ c, (download env u justone w).2.fs d = some (Entry.file c) := by
  unfold download at hok ⊢
  rw [hres] at hok ⊢
  simp only at hok ⊢
  cases hget : env.hpool w.calls (env.parseURL u).String with
  | error e => rw [hget] at hok; simp at hok
  | ok resp =>
    rw [hget] at hok
    simp only at hok ⊢
    cases hopen : os.OpenFile (os.MkdirAll w.fs (filepath.Split d).1) d with
    | error e => rw [hopen] at hok; simp at hok
    | ok fs3 =>
      simp only
      obtain ⟨c, hc⟩ := openFile_ok _ _ _ hopen
      exact ⟨_, write_exists fs3 d c _ hc⟩

/-- With gzip off, a `download` that gets a response and opens its
destination leaves in the file the response body followed by the bytes of
the content at opening time that lie beyond the length of the body. -/
theorem download_writes_over_start (env : Env) (u : Str) (justone : Bool) (w : World)
    (d : Str) (resp : Resp) (fs3 : FS) (hg : env.flagGzip = false)
    (hres : resolveDest env u justone w.fs = Resolution.dest d)
    (hget : env.hpool w.calls (env.parseURL u).String = Except.ok resp)
    (hopen : os.OpenFile (os.MkdirAll w.fs (filepath.Split d).1) d = Except.ok fs3) :
    ∃ old, fs3 d = some (Entry.file old) ∧
      (download env u justone w).1 = resp.readErr ∧
      (download env u justone w).2.fs d
        = some (Entry.file (resp.Body ++ old.drop resp.Body.length)) := by
  obtain ⟨old, hold⟩ := openFile_ok _ _ _ hopen
  refine ⟨old, hold, ?_, ?_⟩
  · unfold download
    rw [hres]
    simp only
    rw [hget]
    simp only
    rw [hopen]
  · unfold download
    rw [hres]
    simp only
    rw [hget]
    simp only
    rw [hopen]
    simp only [hg, Bool.false_eq_true, if_false]
    exact write_exists fs3 d old resp.Body hold

/-- With gzip off, no `-o` and no-clobber on, a `download` that follows a
successful `download` of the same URL returns nil and leaves the world as it
is: no fetch, no file opened. -/
theorem noclobber_second_run_skips (env : Env) (u : Str) (justone : Bool) (w : World)
    (ho : env.flagOutfile = []) (hnc : env.flagNoClobber = true) (hg : env.flagGzip = false)
    (hok : (download env u justone w).1 = none) :
    download env u justone (download env u justone w).2
      = (none, (download env u justone w).2) := by
  have hskip : ∀ fs : FS, ∀ e, os.Stat fs (derivePath (env.parseURL u) justone) = some e →
      resolveDest env u justone fs = Resolution.skip := by
    intro fs e he
    unfold resolveDest resolveCollision
    rw [ho, hnc, he]
    simp
  cases hst : os.Stat w.fs (derivePath (env.parseURL u) justone) with
  | some e =>
    have h1 : download env u justone w = (none, w) :=
      download_of_skip env u justone w (hskip w.fs e hst)
    rw [h1]
    exact h1
  | none =>
    have hres : resolveDest env u justone w.fs
        = Resolution.dest (derivePath (env.parseURL u) justone) := by
      unfold resolveDest resolveCollision
      rw [ho, hg, hst]
      simp
    obtain ⟨c, hc⟩ := download_ok_exists env u justone w _ hres hok
    exact download_of_skip env u justone _ (hskip _ _ hc)

/-- With the version flag unset, a first positional argument that names no
torrent, no tor on Windows and the stat flag unset, `run` builds the pool
from the flags and the header map and returns what the batch driver returns
on the list file when `-i` is given, else what `download` of the first
argument returns with `justone = true`. -/
theorem run_download_routes (env : Env) (w : World) (arg0 : Str) (rest : List Str)
    (hv : env.flagVersion = false) (hargs : env.args = arg0 :: rest)
    (ht : isTorrent arg0 = false)
    (htor : ¬ (env.flagUseTor = true ∧ env.GOOS = "windows".toList))
    (hstat : env.flagDoStat = false) :
    run env w =
      if env.flagList ≠ [] then
        (Outcome.returned
          (downloadfromfile (download
            { env with
              httpHeaders := buildHeaders env.flagHeaders
              hpool := env.httppoolNew env.flagWorkers env.flagUseTor
                (buildHeaders env.flagHeaders) }) (env.readList env.flagList) w).1,
         (downloadfromfile (download
            { env with
              httpHeaders := buildHeaders env.flagHeaders
              hpool := env.httppoolNew env.flagWorkers env.flagUseTor
                (buildHeaders env.flagHeaders) }) (env.readList env.flagList) w).2)
      else
        (Outcome.returned
          (download
            { env with
              httpHeaders := buildHeaders env.flagHeaders
              hpool := env.httppoolNew env.flagWorkers env.flagUseTor
                (buildHeaders env.flagHeaders) } arg0 true w).1,
         (download
            { env with
              httpHeaders := buildHeaders env.flagHeaders
              hpool := env.httppoolNew env.flagWorkers env.flagUseTor
                (buildHeaders env.flagHeaders) } arg0 true w).2) := by
  unfold run
  rw [hv, hargs]
  simp only [Bool.false_eq_true, if_false, ht, hstat]
  rw [if_neg htor]

/-- The model of `path.Clean` on cases of the test table of Go's `path` package. -/
theorem clean_go_cases :
    path.Clean "".toList = ".".toList ∧
    path.Clean "abc".toList = "abc".toList ∧
    path.Clean "abc/def".toList = "abc/def".toList ∧
    path.Clean ".".toList = ".".toList ∧
    path.Clean "..".toList = "..".toList ∧
    path.Clean "../..".toList = "../..".toList ∧
    path.Clean "../../abc".toList = "../../abc".toList ∧
    path.Clean "/abc".toList = "/abc".toList ∧
    path.Clean "/".toList = "/".toList ∧
    path.Clean "abc/".toList = "abc".toList ∧
    path.Clean "abc/def/".toList = "abc/def".toList ∧
    path.Clean "./".toList = ".".toList ∧
    path.Clean "../".toList = "..".toList ∧
    path.Clean "/abc/".toList = "/abc".toList ∧
    path.Clean "abc//def//ghi".toList = "abc/def/ghi".toList ∧
    path.Clean "//abc".toList = "/abc".toList ∧
    path.Clean "//abc//".toList = "/abc".toList ∧
    path.Clean "abc/./def".toList = "abc/def".toList ∧
    path.Clean "/./abc/def".toList = "/abc/def".toList ∧
    path.Clean "abc/.".toList = "abc".toList ∧
    path.Clean "abc/def/ghi/../jkl".toList = "abc/def/jkl".toList ∧
    path.Clean "abc/def/../ghi/../jkl".toList = "abc/jkl".toList ∧
    path.Clean "abc/def/..".toList = "abc".toList ∧
    path.Clean "abc/def/../..".toList = ".".toList ∧
    path.Clean "/abc/def/../..".toList = "/".toList ∧
    path.Clean "abc/def/../../..".toList = "..".toList ∧
    path.Clean "/abc/def/../../..".toList = "/".toList ∧
    path.Clean "abc/def/../../../ghi/jkl/../../../mno".toList = "../../mno".toList ∧
    path.Clean "abc/./../def".toList = "def".toList ∧
    path.Clean "abc//./../def".toList = "def".toList ∧
    path.Clean "abc/../../././../def".toList = "../../def".toList := by
  decide

theorem crowdedUpTo_suffix (bound m : Nat) (h : m < bound) :
    os.Stat (crowdedUpTo bound) (fmt.SprintfSD "a".toList m) ≠ none := by
  have hm : fmt.SprintfSD "a".toList m ∈
      (List.range bound).map (fmt.SprintfSD "a".toList) :=
    List.mem_map.mpr ⟨m, List.mem_range.mpr h, rfl⟩
  unfold os.Stat crowdedUpTo
  rw [if_pos (Or.inr hm)]
  exact Option.some_ne_none _

theorem crowdedUpTo_base (bound : Nat) :
    os.Stat (crowdedUpTo bound) "a".toList = some (Entry.file []) := by
  unfold os.Stat crowdedUpTo
  exact if_pos (Or.inl rfl)

theorem crowded_suffix (m : Nat) (h : m < 1000000) :
    os.Stat crowdedFS (fmt.SprintfSD "a".toList m) ≠ none :=
  crowdedUpTo_suffix 1000000 m h

theorem crowded_base : os.Stat crowdedFS "a".toList = some (Entry.file []) :=
  crowdedUpTo_base 1000000

theorem crowded_resolve :
    resolveDest sampleEnv "http://h/a".toList true crowdedFS = Resolution.dest "a".toList := by
  have hp : derivePath (sampleEnv.parseURL "http://h/a".toList) true = "a".toList := by decide
  have hst := crowded_base
  have hloop : suffixLoop crowdedFS "a".toList 999999 1 = "a".toList :=
    suffixLoop_exhausted crowdedFS _ 999999 1 (fun m _ h2 => crowded_suffix m (by omega))
  unfold resolveDest resolveCollision
  rw [hp, hst]
  simp [sampleEnv]
  exact hloop

/-! # The claims -/

/-- Claim C1, refuted as stated: with no `-o`, when `a` and every `a.N`
below the bound are regular files, `download` opens the existing file `a`
for writing. -/
theorem download_opens_existing_when_suffixes_exhausted :
    sampleEnv.flagOutfile = [] ∧
    (download sampleEnv "http://h/a".toList true ⟨crowdedFS, []⟩).2.calls
      = [Call.hpoolGet "http://h/a".toList, Call.mkdirAll [], Call.openFile "a".toList] ∧
    os.Stat crowdedFS "a".toList = some (Entry.file []) := by
  refine ⟨rfl, ?_, crowded_base⟩
  rw [download_calls, crowded_resolve]
  rfl

/-- Claim C1, amended: with no `-o` and gzip off, a path that `download`
opens for writing had no entry when it was resolved, in every filesystem
state but those where the derived path `p` is a regular file, no-clobber is
off and every `p.N` with `1 ≤ N < 1000000` has an entry. -/
theorem download_opens_free_path (env : Env) (u : Str) (justone : Bool) (w : World) (d : Str)
    (ho : env.flagOutfile = []) (hg : env.flagGzip = false)
    (hroom : ∀ c,
      os.Stat w.fs (derivePath (env.parseURL u) justone) = some (Entry.file c) →
      env.flagNoClobber = false →
      ∃ N, 1 ≤ N ∧ N < 1000000 ∧
        os.Stat w.fs (fmt.SprintfSD (derivePath (env.parseURL u) justone) N) = none)
    (hopen : Call.openFile d ∈ (download env u justone w).2.calls)
    (hnew : Call.openFile d ∉ w.calls) :
    os.Stat w.fs d = none := by
  rw [download_calls] at hopen
  rcases List.mem_append.mp hopen with h | h
  · exact absurd h hnew
  · cases hres : resolveDest env u justone w.fs with
    | skip => rw [hres] at h; simp at h
    | fail e => rw [hres] at h; simp at h
    | dest d1 =>
      rw [hres] at h
      have hd : d = d1 := by
        cases hget : env.hpool w.calls (env.parseURL u).String with
        | error e => rw [hget] at h; simp at h
        | ok resp => rw [hget] at h; simpa using h
      rw [hd]
      exact resolveDest_free env u justone w.fs d1 ho hg hroom hres

/-- The amended claim C1 on `http://h/a` in single-item mode when `a` exists
and `a.1` is free: the path opened is `a.1`. -/
theorem download_opens_free_path_witness :
    Call.openFile "a.1".toList ∈
        (download sampleEnv "http://h/a".toList true ⟨oneFileFS, []⟩).2.calls ∧
      os.Stat oneFileFS "a.1".toList = none :=
  ⟨by decide,
    download_opens_free_path sampleEnv "http://h/a".toList true ⟨oneFileFS, []⟩ "a.1".toList
      rfl rfl (fun _ _ _ => ⟨1, le_refl 1, by decide, by decide⟩) (by decide) (by decide)⟩

/-- Claim C2: with no `-o` and no-clobber off, when the derived path `p` is a
regular file and some `p.N` with `1 ≤ N < 1000000` has no entry, the
destination resolved before the `.gz` suffix is `p.n` for the smallest such
`n`: `p.n` has no entry and every `p.m` with `1 ≤ m < n` has one. -/
theorem resolveCollision_smallest_free_suffix (env : Env) (u : Str) (justone : Bool) (fs : FS)
    (c : Bytes) (N : Nat)
    (ho : env.flagOutfile = []) (hnc : env.flagNoClobber = false)
    (hp : os.Stat fs (derivePath (env.parseURL u) justone) = some (Entry.file c))
    (h1 : 1 ≤ N) (h2 : N < 1000000)
    (hN : os.Stat fs (fmt.SprintfSD (derivePath (env.parseURL u) justone) N) = none) :
    ∃ n, 1 ≤ n ∧ n ≤ N ∧
      resolveCollision env.flagOutfile env.flagNoClobber fs
          (derivePath (env.parseURL u) justone)
        = Resolution.dest (fmt.SprintfSD (derivePath (env.parseURL u) justone) n) ∧
      resolveDest env u justone fs
        = Resolution.dest
            (if env.flagGzip then
              fmt.SprintfSD (derivePath (env.parseURL u) justone) n ++ ".gz".toList
             else fmt.SprintfSD (derivePath (env.parseURL u) justone) n) ∧
      os.Stat fs (fmt.SprintfSD (derivePath (env.parseURL u) justone) n) = none ∧
      ∀ m, 1 ≤ m → m < n →
        os.Stat fs (fmt.SprintfSD (derivePath (env.parseURL u) justone) m) ≠ none := by
  obtain ⟨k, hk1, hk2, hk3, hk4, hk5⟩ :=
    suffixLoop_least fs (derivePath (env.parseURL u) justone) 999999 1 N h1 (by omega) hN
  have hcol : resolveCollision env.flagOutfile env.flagNoClobber fs
      (derivePath (env.parseURL u) justone)
      = Resolution.dest (fmt.SprintfSD (derivePath (env.parseURL u) justone) k) := by
    unfold resolveCollision
    rw [ho, hnc, hp]
    simp [hk3]
  refine ⟨k, hk1, hk2, hcol, ?_, hk4, hk5⟩
  unfold resolveDest
  rw [hcol]

/-- Claim C2 on `http://h/a` in single-item mode when `a` exists and `a.1` is
free. -/
theorem resolveCollision_smallest_free_suffix_witness :
    ∃ n, 1 ≤ n ∧ n ≤ 1 ∧
      resolveCollision sampleEnv.flagOutfile sampleEnv.flagNoClobber oneFileFS
          (derivePath (sampleEnv.parseURL "http://h/a".toList) true)
        = Resolution.dest
            (fmt.SprintfSD (derivePath (sampleEnv.parseURL "http://h/a".toList) true) n) ∧
      resolveDest sampleEnv "http://h/a".toList true oneFileFS
        = Resolution.dest
            (if sampleEnv.flagGzip then
              fmt.SprintfSD (derivePath (sampleEnv.parseURL "http://h/a".toList) true) n
                ++ ".gz".toList
             else fmt.SprintfSD (derivePath (sampleEnv.parseURL "http://h/a".toList) true) n) ∧
      os.Stat oneFileFS
          (fmt.SprintfSD (derivePath (sampleEnv.parseURL "http://h/a".toList) true) n) = none ∧
      ∀ m, 1 ≤ m → m < n →
        os.Stat oneFileFS
          (fmt.SprintfSD (derivePath (sampleEnv.parseURL "http://h/a".toList) true) m) ≠ none :=
  resolveCollision_smallest_free_suffix sampleEnv "http://h/a".toList true oneFileFS [1] 1
    rfl rfl (by decide) (le_refl 1) (by decide) (by decide)

/-- Claim C3, refuted as stated: in single-item mode the URL `http://h/d/`,
whose path ends in `/`, resolves with no `-o`, gzip off and no collision to
`index.html`, which does not end in `/index.html`. -/
theorem single_item_index_has_no_directory :
    strings.HasSuffix (sampleParse "http://h/d/".toList).Path ['/'] = true ∧
    sampleEnv.flagOutfile = [] ∧ sampleEnv.flagGzip = false ∧
    resolveDest sampleEnv "http://h/d/".toList true emptyFS
      = Resolution.dest "index.html".toList ∧
    strings.HasSuffix "index.html".toList "/index.html".toList = false := by
  decide

/-- The other way claim C3 fails: in batch mode the test for the trailing `/`
is made on the whole URL text, so `http://h/d/?q=1`, whose path ends in `/`,
resolves to `h/d`. -/
theorem batch_query_hides_trailing_slash :
    strings.HasSuffix (sampleParse "http://h/d/?q=1".toList).Path ['/'] = true ∧
    resolveDest sampleEnv "http://h/d/?q=1".toList false emptyFS
      = Resolution.dest "h/d".toList := by
  decide

/-- Claim C3, amended: for a URL whose rendered text ends in `/`, with no
`-o`, gzip off and no collision, the resolved destination is `index.html`
in single-item mode; in batch mode it ends in `/index.html`, except that it
is `index.html` when the join of host and path is empty or `.`. -/
theorem resolveDest_index_html (env : Env) (u : Str) (justone : Bool) (fs : FS)
    (hslash : strings.HasSuffix (env.parseURL u).String ['/'] = true)
    (ho : env.flagOutfile = []) (hg : env.flagGzip = false)
    (hfree : os.Stat fs (derivePath (env.parseURL u) justone) = none) :
    resolveDest env u justone fs = Resolution.dest (derivePath (env.parseURL u) justone) ∧
    (justone = true → derivePath (env.parseURL u) justone = "index.html".toList) ∧
    (justone = false →
      if path.Join [(env.parseURL u).Host, (env.parseURL u).Path] = [] ∨
          path.Join [(env.parseURL u).Host, (env.parseURL u).Path] = ['.'] then
        derivePath (env.parseURL u) justone = "index.html".toList
      else
        strings.HasSuffix (derivePath (env.parseURL u) justone) "/index.html".toList
          = true) := by
  refine ⟨?_, ?_, ?_⟩
  · unfold resolveDest resolveCollision
    rw [ho, hg, hfree]
    simp
  · intro hj
    subst hj
    exact derivePath_index_single _ hslash
  · intro hj
    subst hj
    have hb := derivePath_index_batch (env.parseURL u) hslash
    split
    · rename_i h
      rw [if_pos h] at hb
      exact hb
    · rename_i h
      rw [if_neg h] at hb
      obtain ⟨pre, hpre⟩ := hb
      rw [hpre]
      exact hasSuffix_append _ _

/-- The amended claim C3 on `http://h/d/` in batch mode in the empty
filesystem. -/
theorem resolveDest_index_html_witness :
    resolveDest sampleEnv "http://h/d/".toList false emptyFS
      = Resolution.dest (derivePath (sampleEnv.parseURL "http://h/d/".toList) false) ∧
    (false = true →
      derivePath (sampleEnv.parseURL "http://h/d/".toList) false = "index.html".toList) ∧
    (false = false →
      if path.Join [(sampleEnv.parseURL "http://h/d/".toList).Host,
            (sampleEnv.parseURL "http://h/d/".toList).Path] = [] ∨
          path.Join [(sampleEnv.parseURL "http://h/d/".toList).Host,
            (sampleEnv.parseURL "http://h/d/".toList).Path] = ['.'] then
        derivePath (sampleEnv.parseURL "http://h/d/".toList) false = "index.html".toList
      else
        strings.HasSuffix (derivePath (sampleEnv.parseURL "http://h/d/".toList) false)
          "/index.html".toList = true) :=
  resolveDest_index_html sampleEnv "http://h/d/".toList false emptyFS
    (by decide) rfl rfl (by decide)

/-- Claim C4, the code at the failing input: with gzip and no-clobber on and
an empty filesystem, the first `download` of `http://h/a` succeeds and writes
`a.gz`; the second `download` of the same URL stats `a`, finds nothing,
fetches again and opens `a.gz` again. -/
theorem noclobber_gzip_fetches_twice :
    (download gzipNoClobberEnv "http://h/a".toList true ⟨emptyFS, []⟩).1 = none ∧
    (download gzipNoClobberEnv "http://h/a".toList true ⟨emptyFS, []⟩).2.calls
      = [Call.hpoolGet "http://h/a".toList, Call.mkdirAll [], Call.openFile "a.gz".toList] ∧
    (download gzipNoClobberEnv "http://h/a".toList true ⟨emptyFS, []⟩).2.fs "a.gz".toList
      = some (Entry.file [31, 139, 9, 9]) ∧
    (download gzipNoClobberEnv "http://h/a".toList true ⟨emptyFS, []⟩).2.fs "a".toList
      = none ∧
    (download gzipNoClobberEnv "http://h/a".toList true
        (download gzipNoClobberEnv "http://h/a".toList true ⟨emptyFS, []⟩).2).1 = none ∧
    (download gzipNoClobberEnv "http://h/a".toList true
        (download gzipNoClobberEnv "http://h/a".toList true ⟨emptyFS, []⟩).2).2.calls
      = [Call.hpoolGet "http://h/a".toList, Call.mkdirAll [], Call.openFile "a.gz".toList,
         Call.hpoolGet "http://h/a".toList, Call.mkdirAll [], Call.openFile "a.gz".toList] := by
  decide

/-- Claim C5: `downloadfromfile` calls the downloader on the trimmed lines
in file order with `justone = false`; when the calls on the lines `pre`
return nil and the call on the next line `l` fails, it returns exactly what
that call returned (its error, and the state after it) and the calls made
are those for `pre` and `l`, none for a later line; when every call returns
nil it returns the scanner's error and the state after the last call. -/
theorem downloadfromfile_first_error {σ : Type} (dl : Str → Bool → σ → Option Err × σ)
    (lf : ListFile) (w wk : σ) (pre rest : List Str) (n : Int)
    (hcount : lf.countLines = Except.ok n) (hopen : lf.openErr = none)
    (hlines : lf.lines = pre ++ rest) (hpre : AllNil dl pre w wk) :
    (∀ l post, rest = l :: post → (dl (strings.TrimSpace l) false wk).1 ≠ none →
      downloadfromfile dl lf w = dl (strings.TrimSpace l) false wk ∧
      (downloadfromfile (recordCalls dl) lf (w, [])).2.2
        = (pre ++ [l]).map (fun x => (strings.TrimSpace x, false))) ∧
    (rest = [] →
      downloadfromfile dl lf w = (lf.scanErr, wk) ∧
      (downloadfromfile (recordCalls dl) lf (w, [])).2.2
        = pre.map (fun x => (strings.TrimSpace x, false))) := by
  have hrec := allNil_record dl pre w wk hpre []
  constructor
  · intro l post hrest hfail
    subst hrest
    have h1 : scanLoop dl lf.lines w = dl (strings.TrimSpace l) false wk := by
      rw [hlines, scanLoop_append dl pre _ w wk hpre, scanLoop_fail dl l post wk hfail]
    have hfail2 : (recordCalls dl (strings.TrimSpace l) false
        (wk, [] ++ pre.map (fun x => (strings.TrimSpace x, false)))).1 ≠ none := by
      simpa [recordCalls] using hfail
    have h2 : scanLoop (recordCalls dl) lf.lines (w, [])
        = recordCalls dl (strings.TrimSpace l) false
            (wk, [] ++ pre.map (fun x => (strings.TrimSpace x, false))) := by
      rw [hlines, scanLoop_append (recordCalls dl) pre _ _ _ hrec,
        scanLoop_fail (recordCalls dl) l post _ hfail2]
    constructor
    · rw [dff_of_scan dl lf w n hcount hopen, h1, if_neg hfail]
    · rw [dff_of_scan (recordCalls dl) lf _ n hcount hopen, h2, if_neg hfail2]
      simp [recordCalls]
  · intro hrest
    subst hrest
    have h1 : scanLoop dl lf.lines w = (none, wk) := by
      rw [hlines, scanLoop_append dl pre _ w wk hpre]; rfl
    have h2 : scanLoop (recordCalls dl) lf.lines (w, [])
        = (none, (wk, [] ++ pre.map (fun x => (strings.TrimSpace x, false)))) := by
      rw [hlines, scanLoop_append (recordCalls dl) pre _ _ _ hrec]; rfl
    constructor
    · rw [dff_of_scan dl lf w n hcount hopen, h1]; simp
    · rw [dff_of_scan (recordCalls dl) lf _ n hcount hopen, h2]; simp

/-- Claim C5 on a list of three lines whose second line fails: the first
line is `pre`, and the state counts the calls. -/
theorem downloadfromfile_first_error_witness :
    (∀ l post, [" bad ".toList, "c".toList] = l :: post →
      (sampleDl (strings.TrimSpace l) false 1).1 ≠ none →
      downloadfromfile sampleDl sampleList 0 = sampleDl (strings.TrimSpace l) false 1 ∧
      (downloadfromfile (recordCalls sampleDl) sampleList (0, [])).2.2
        = (["a".toList] ++ [l]).map (fun x => (strings.TrimSpace x, false))) ∧
    ([" bad ".toList, "c".toList] = [] →
      downloadfromfile sampleDl sampleList 0 = (sampleList.scanErr, 1) ∧
      (downloadfromfile (recordCalls sampleDl) sampleList (0, [])).2.2
        = ["a".toList].map (fun x => (strings.TrimSpace x, false))) :=
  downloadfromfile_first_error sampleDl sampleList 0 1 ["a".toList]
    [" bad ".toList, "c".toList] 3 rfl rfl rfl
    (AllNil.call "a".toList [] 0 1 1 (by decide) (AllNil.done 1))

/-- Claim C6, the code at the failing input: with `-i urls.txt` and no
positional argument, `run` panics on `flag.Args()[0]` and makes no call. -/
theorem run_list_without_argument_panics :
    batchOnlyEnv.flagVersion = false ∧ batchOnlyEnv.flagDoStat = false ∧
    batchOnlyEnv.flagList ≠ [] ∧ batchOnlyEnv.args = [] ∧
    (run batchOnlyEnv ⟨emptyFS, []⟩).1 = Outcome.panicked ∧
    (run batchOnlyEnv ⟨emptyFS, []⟩).2.calls = [] := by
  decide

/-- Claim C7: the header map built from the `-H` entries binds `k` to `v`
exactly when some entry `a:b`, cut at its first colon, has `k` as trimmed
name and `v` as trimmed value, and no later entry with a colon has the
trimmed name `k`; entries without a colon bind nothing. -/
theorem buildHeaders_last_binding (hs : List Str) (k v : Str) :
    buildHeaders hs k = some v ↔
      ∃ pre a b post, hs = pre ++ (a ++ ':' :: b) :: post ∧ ':' ∉ a ∧
        strings.TrimSpace a = k ∧ strings.TrimSpace b = v ∧
        ∀ h ∈ post, ∀ a1 b1, h = a1 ++ ':' :: b1 → ':' ∉ a1 → strings.TrimSpace a1 ≠ k := by
  show _ ↔ LastBinding hs k v
  induction hs using List.reverseRecOn generalizing v with
  | nil =>
    simp [buildHeaders, LastBinding]
  | append_singleton hs h ih =>
    have hb : buildHeaders (hs ++ [h]) = addHeader (buildHeaders hs) h := by
      simp [buildHeaders, List.foldl_append]
    rw [hb]
    by_cases hc : ':' ∈ h
    · obtain ⟨a0, b0, e, h0⟩ := exists_cut h ':' hc
      subst e
      rw [addHeader_cut _ a0 b0 k h0, lastBinding_snoc_cut hs a0 b0 k v h0]
      by_cases hk : k = strings.TrimSpace a0
      · simp [hk]
        exact eq_comm
      · simp [hk]
        exact ih v
    · rw [addHeader_whole _ h hc, lastBinding_snoc_whole hs h k v hc]
      exact ih v

/-- Claim C8, refuted as stated: with `-tor` on Windows, `-version` makes
`run` print the version and return nil, and a magnet link as first argument
makes it return what `torrent.Download` returns; neither run ends with the
tor error. -/
theorem run_version_before_tor_check :
    versionTorEnv.flagUseTor = true ∧ versionTorEnv.GOOS = "windows".toList ∧
    (run versionTorEnv ⟨emptyFS, []⟩).1 = Outcome.returned none ∧
    (run versionTorEnv ⟨emptyFS, []⟩).2.calls = [Call.printVersion] ∧
    magnetTorEnv.flagUseTor = true ∧ magnetTorEnv.GOOS = "windows".toList ∧
    (run magnetTorEnv ⟨emptyFS, []⟩).1 = Outcome.returned none ∧
    (run magnetTorEnv ⟨emptyFS, []⟩).2.calls
      = [Call.torrentDownload "magnet:?xt=urn:btih:0".toList] := by
  decide

/-- Claim C8, amended: when `-tor` is requested on Windows, the version flag
is unset and the first positional argument exists and names no magnet link
or `.torrent` file, `run` returns the tor error and leaves the world as it
was: neither the stat route nor the batch or single download is taken. -/
theorem run_tor_on_windows_refused (env : Env) (w : World) (arg0 : Str) (rest : List Str)
    (hv : env.flagVersion = false) (hargs : env.args = arg0 :: rest)
    (ht : isTorrent arg0 = false)
    (htor : env.flagUseTor = true) (hos : env.GOOS = "windows".toList) :
    run env w = (Outcome.returned (some Err.torWindows), w) := by
  unfold run
  rw [hv, hargs]
  simp [ht, htor, hos]

/-- The amended claim C8 on the run `-tor -i urls.txt http://h/a` on Windows. -/
theorem run_tor_on_windows_refused_witness :
    run torWindowsEnv ⟨emptyFS, []⟩
      = (Outcome.returned (some Err.torWindows), ⟨emptyFS, []⟩) :=
  run_tor_on_windows_refused torWindowsEnv ⟨emptyFS, []⟩ "http://h/a".toList []
    rfl rfl (by decide) rfl rfl

/-- Claim C9, refuted as stated: in batch mode the URL `http://h/../../x`,
with host `h`, is derived to `../x`, which is neither `h` nor under `h/`, and
that is the path `download` opens. -/
theorem batch_destination_leaves_host :
    (sampleParse "http://h/../../x".toList).Host = "h".toList ∧
    derivePath (sampleParse "http://h/../../x".toList) false = "../x".toList ∧
    "../x".toList ≠ "h".toList ∧
    strings.HasPrefix "../x".toList "h/".toList = false ∧
    (download sampleEnv "http://h/../../x".toList false ⟨emptyFS, []⟩).2.calls
      = [Call.hpoolGet "http://h/../../x".toList, Call.mkdirAll "../".toList,
         Call.openFile "../x".toList] := by
  decide

/-- Claim C9, amended: for a parsed URL for which the cleaning of host `/`
path keeps the host as the first element, with no `..` before it
(`path.kept` gives `(0, host :: extra)`: the host is an ordinary element and
no `..` element of the path ends above the host directory, as for
`/a/../b`), the path derived in batch mode with no `-o` is the host or
starts with the host followed by `/`; the destination resolved from it, with
its collision number and `.gz` suffix if any, starts with the host, and with
the host followed by `/` unless the derived path is the host itself. -/
theorem batch_destination_under_host (env : Env) (u : Str) (fs : FS) (extra : List Str)
    (ho : env.flagOutfile = [])
    (hkept : path.kept ((env.parseURL u).Host ++ '/' :: (env.parseURL u).Path)
      = (0, (env.parseURL u).Host :: extra)) :
    (derivePath (env.parseURL u) false = (env.parseURL u).Host ∨
      strings.HasPrefix (derivePath (env.parseURL u) false)
        ((env.parseURL u).Host ++ ['/']) = true) ∧
    ∀ d, resolveDest env u false fs = Resolution.dest d →
      strings.HasPrefix d (env.parseURL u).Host = true ∧
      (derivePath (env.parseURL u) false ≠ (env.parseURL u).Host →
        strings.HasPrefix d ((env.parseURL u).Host ++ ['/']) = true) := by
  have hd := derivePath_host_or_under (env.parseURL u) extra hkept
  refine ⟨hd, ?_⟩
  intro d hres
  obtain ⟨s, hs⟩ := resolveDest_appends env u false fs d ho hres
  rcases hd with h | h
  · refine ⟨?_, fun hne => absurd h hne⟩
    rw [hs, h]
    exact hasPrefix_append _ _
  · obtain ⟨t, ht⟩ := (hasPrefix_iff _ _).mp h
    have hfull : d = ((env.parseURL u).Host ++ ['/']) ++ (t ++ s) := by
      rw [hs, ht]; simp
    refine ⟨?_, fun _ => ?_⟩
    · rw [hfull, List.append_assoc]
      exact hasPrefix_append _ _
    · rw [hfull]
      exact hasPrefix_append _ _

/-- The amended claim C9 on the URL `http://h/a/../b` in the empty
filesystem: the path has a `..` element and the derived path is `h/b`. -/
theorem batch_destination_under_host_witness :
    path.kept ((dotdotEnv.parseURL "http://h/a/../b".toList).Host
        ++ '/' :: (dotdotEnv.parseURL "http://h/a/../b".toList).Path)
      = (0, (dotdotEnv.parseURL "http://h/a/../b".toList).Host :: ["b".toList]) ∧
    derivePath (dotdotEnv.parseURL "http://h/a/../b".toList) false = "h/b".toList ∧
    ((derivePath (dotdotEnv.parseURL "http://h/a/../b".toList) false
        = (dotdotEnv.parseURL "http://h/a/../b".toList).Host ∨
      strings.HasPrefix (derivePath (dotdotEnv.parseURL "http://h/a/../b".toList) false)
        ((dotdotEnv.parseURL "http://h/a/../b".toList).Host ++ ['/']) = true) ∧
    ∀ d, resolveDest dotdotEnv "http://h/a/../b".toList false emptyFS = Resolution.dest d →
      strings.HasPrefix d (dotdotEnv.parseURL "http://h/a/../b".toList).Host = true ∧
      (derivePath (dotdotEnv.parseURL "http://h/a/../b".toList) false
          ≠ (dotdotEnv.parseURL "http://h/a/../b".toList).Host →
        strings.HasPrefix d
          ((dotdotEnv.parseURL "http://h/a/../b".toList).Host ++ ['/']) = true)) :=
  ⟨by decide, by decide,
    batch_destination_under_host dotdotEnv "http://h/a/../b".toList emptyFS ["b".toList] rfl
      (by decide)⟩

/-- Claim C10, the code at the failing input: with `-o out.txt`, gzip off,
over an existing six-byte `out.txt` and a two-byte response body,
`download` succeeds and leaves the last four old bytes in the file. -/
theorem download_keeps_old_tail :
    outfileEnv.flagGzip = false ∧
    outfileFS "out.txt".toList = some (Entry.file [1, 2, 3, 4, 5, 6]) ∧
    outfileEnv.hpool [] "http://h/a".toList = Except.ok ⟨[9, 9], none⟩ ∧
    (download outfileEnv "http://h/a".toList true ⟨outfileFS, []⟩).1 = none ∧
    (download outfileEnv "http://h/a".toList true ⟨outfileFS, []⟩).2.fs "out.txt".toList
      = some (Entry.file [9, 9, 3, 4, 5, 6]) :=
  ⟨by decide, by decide, rfl, by decide, by decide⟩

end Zget
